import Mathlib

/-!
Verification of the cryptographic core of the Economic-Policy-Engine repository
(`src/core/encryption.py`): the SM4 and Kuznyechik block ciphers with CBC mode
and PKCS7 padding, the SM3 and Streebog streaming hashes, and the
`EncryptionManager` façade.  Python byte strings are modelled as `List Nat`
(each element a byte value), machine words as `Nat` with explicit masking, and
raised exceptions as `Except Err`.
-/

namespace EncSpec

/-- Error kinds raised by the encryption module: one constructor per distinct
exception site in the source (`ValueError` messages and the `IndexError`
implicit in indexing an empty byte string). -/
inductive Err where
  | invalidKeyLength
  | invalidIVLength
  | invalidCiphertextLength
  | invalidPadding
  | indexError
  | valueError
  | notInitialized
  | unsupportedAlgorithm
deriving DecidableEq, Repr

/-- A Python `bytes` value: a list of byte values. -/
abbrev Bytes := List Nat

/-- Every element of the list is a byte value (`< 256`). -/
def isBytes (l : Bytes) : Prop := ∀ b ∈ l, b < 256

instance isBytes_decidable (l : Bytes) : Decidable (isBytes l) :=
  inferInstanceAs (Decidable (∀ b ∈ l, b < 256))

instance exceptDecidableEq {ε α : Type} [DecidableEq ε] [DecidableEq α] :
    DecidableEq (Except ε α)
  | .ok a, .ok b =>
      if h : a = b then .isTrue (by rw [h]) else
        .isFalse (by intro hh; injection hh; contradiction)
  | .error e, .error f =>
      if h : e = f then .isTrue (by rw [h]) else
        .isFalse (by intro hh; injection hh; contradiction)
  | .ok _, .error _ => .isFalse (by intro hh; injection hh)
  | .error _, .ok _ => .isFalse (by intro hh; injection hh)

/-- `bytes(x ^ y for x, y in zip(a, b))` — used by both CBC modes and by the
Kuznyechik key schedule.  Like Python `zip`, it truncates to the shorter list. -/
def zipXor (a b : Bytes) : Bytes := List.zipWith (· ^^^ ·) a b

/-- `SM4._rotl`: 32-bit rotate left, `((x << n) | (x >> (32 - n))) & 0xffffffff`. -/
def rotl32 (x n : Nat) : Nat := ((x <<< n) ||| (x >>> (32 - n))) &&& 0xffffffff

/-- `struct.unpack('>I', ...)` applied to each 4-byte group
(`SM4._bytes_to_words`, also used by `SM3._compress`). -/
def bytesToWords : Bytes → List Nat
  | b0 :: b1 :: b2 :: b3 :: rest =>
      (b0 * 2 ^ 24 + b1 * 2 ^ 16 + b2 * 2 ^ 8 + b3) :: bytesToWords rest
  | _ => []

/-- `struct.pack('>I', w)`: the four big-endian bytes of a 32-bit word. -/
def wordToBytes (w : Nat) : Bytes :=
  [w / 2 ^ 24 % 256, w / 2 ^ 16 % 256, w / 2 ^ 8 % 256, w % 256]

/-- `SM4._words_to_bytes`: `b''.join(struct.pack('>I', w) for w in words)`. -/
def wordsToBytes : List Nat → Bytes
  | [] => []
  | w :: ws => wordToBytes w ++ wordsToBytes ws

/-- The SM4 S-box (`SM4.SBOX`). -/
def sm4SBOX : List Nat := [
  0xd6, 0x90, 0xe9, 0xfe, 0xcc, 0xe1, 0x3d, 0xb7, 0x16, 0xb6, 0x14, 0xc2, 0x28, 0xfb, 0x2c, 0x05,
  0x2b, 0x67, 0x9a, 0x76, 0x2a, 0xbe, 0x04, 0xc3, 0xaa, 0x44, 0x13, 0x26, 0x49, 0x86, 0x06, 0x99,
  0x9c, 0x42, 0x50, 0xf4, 0x91, 0xef, 0x98, 0x7a, 0x33, 0x54, 0x0b, 0x43, 0xed, 0xcf, 0xac, 0x62,
  0xe4, 0xb3, 0x1c, 0xa9, 0xc9, 0x08, 0xe8, 0x95, 0x80, 0xdf, 0x94, 0xfa, 0x75, 0x8f, 0x3f, 0xa6,
  0x47, 0x07, 0xa7, 0xfc, 0xf3, 0x73, 0x17, 0xba, 0x83, 0x59, 0x3c, 0x19, 0xe6, 0x85, 0x4f, 0xa8,
  0x68, 0x6b, 0x81, 0xb2, 0x71, 0x64, 0xda, 0x8b, 0xf8, 0xeb, 0x0f, 0x4b, 0x70, 0x56, 0x9d, 0x35,
  0x1e, 0x24, 0x0e, 0x5e, 0x63, 0x58, 0xd1, 0xa2, 0x25, 0x22, 0x7c, 0x3b, 0x01, 0x21, 0x78, 0x87,
  0xd4, 0x00, 0x46, 0x57, 0x9f, 0xd3, 0x27, 0x52, 0x4c, 0x36, 0x02, 0xe7, 0xa0, 0xc4, 0xc8, 0x9e,
  0xea, 0xbf, 0x8a, 0xd2, 0x40, 0xc7, 0x38, 0xb5, 0xa3, 0xf7, 0xf2, 0xce, 0xf9, 0x61, 0x15, 0xa1,
  0xe0, 0xae, 0x5d, 0xa4, 0x9b, 0x34, 0x1a, 0x55, 0xad, 0x93, 0x32, 0x30, 0xf5, 0x8c, 0xb1, 0xe3,
  0x1d, 0xf6, 0xe2, 0x2e, 0x82, 0x66, 0xca, 0x60, 0xc0, 0x29, 0x23, 0xab, 0x0d, 0x53, 0x4e, 0x6f,
  0xd5, 0xdb, 0x37, 0x45, 0xde, 0xfd, 0x8e, 0x2f, 0x03, 0xff, 0x6a, 0x72, 0x6d, 0x6c, 0x5b, 0x51,
  0x8d, 0x1b, 0xaf, 0x92, 0xbb, 0xdd, 0xbc, 0x7f, 0x11, 0xd9, 0x5c, 0x41, 0x1f, 0x10, 0x5a, 0xd8,
  0x0a, 0xc1, 0x31, 0x88, 0xa5, 0xcd, 0x7b, 0xbd, 0x2d, 0x74, 0xd0, 0x12, 0xb8, 0xe5, 0xb4, 0xb0,
  0x89, 0x69, 0x97, 0x4a, 0x0c, 0x96, 0x77, 0x7e, 0x65, 0xb9, 0xf1, 0x09, 0xc5, 0x6e, 0xc6, 0x84,
  0x18, 0xf0, 0x7d, 0xec, 0x3a, 0xdc, 0x4d, 0x20, 0x79, 0xee, 0x5f, 0x3e, 0xd7, 0xcb, 0x39, 0x48]

/-- `SM4.FK`: system parameters for key expansion. -/
def sm4FK : List Nat := [0xa3b1bac6, 0x56aa3350, 0x677d9197, 0xb27022dc]

/-- `SM4.CK`: the 32 fixed per-round key-expansion constants. -/
def sm4CK : List Nat := [
  0x00070e15, 0x1c232a31, 0x383f464d, 0x545b6269,
  0x70777e85, 0x8c939aa1, 0xa8afb6bd, 0xc4cbd2d9,
  0xe0e7eef5, 0xfc030a11, 0x181f262d, 0x343b4249,
  0x50575e65, 0x6c737a81, 0x888f969d, 0xa4abb2b9,
  0xc0c7ced5, 0xdce3eaf1, 0xf8ff060d, 0x141b2229,
  0x30373e45, 0x4c535a61, 0x686f767d, 0x848b9299,
  0xa0a7aeb5, 0xbcc3cad1, 0xd8dfe6ed, 0xf4fb0209,
  0x10171e25, 0x2c333a41, 0x484f565d, 0x646b7279]

/-- S-box lookup `SM4.SBOX[i]`. -/
def sm4SboxAt (i : Nat) : Nat := sm4SBOX.getD i 0

/-- `SM4._sbox_transform`: apply the S-box to each byte of a 32-bit word. -/
def sm4SboxTransform (x : Nat) : Nat :=
  (sm4SboxAt ((x >>> 24) &&& 0xff)) <<< 24 |||
  (sm4SboxAt ((x >>> 16) &&& 0xff)) <<< 16 |||
  (sm4SboxAt ((x >>> 8) &&& 0xff)) <<< 8 |||
  sm4SboxAt (x &&& 0xff)

/-- `SM4._l_transform`: linear transform L for encryption. -/
def sm4L (x : Nat) : Nat :=
  x ^^^ rotl32 x 2 ^^^ rotl32 x 10 ^^^ rotl32 x 18 ^^^ rotl32 x 24

/-- `SM4._l_prime_transform`: linear transform for key expansion. -/
def sm4LPrime (x : Nat) : Nat := x ^^^ rotl32 x 13 ^^^ rotl32 x 23

/-- `SM4._t_transform`. -/
def sm4T (x : Nat) : Nat := sm4L (sm4SboxTransform x)

/-- `SM4._t_prime_transform`. -/
def sm4TPrime (x : Nat) : Nat := sm4LPrime (sm4SboxTransform x)

/-- The key-expansion loop of `SM4._key_expansion`: each round consumes one
`CK` constant and emits one round key, sliding the 4-word window
`(k[i], k[i+1], k[i+2], k[i+3])`. -/
def sm4Schedule : List Nat → Nat × Nat × Nat × Nat → List Nat
  | [], _ => []
  | ck :: cks, (k0, k1, k2, k3) =>
      let k4 := k0 ^^^ sm4TPrime (k1 ^^^ k2 ^^^ k3 ^^^ ck)
      k4 :: sm4Schedule cks (k1, k2, k3, k4)

/-- `SM4._key_expansion`: XOR the four key words with `FK`, then run the
32-round schedule. -/
def sm4KeyExpansion (key : Bytes) : List Nat :=
  match List.zipWith (· ^^^ ·) (bytesToWords key) sm4FK with
  | [k0, k1, k2, k3] => sm4Schedule sm4CK (k0, k1, k2, k3)
  | _ => []

/-- The 32-round loop shared by `SM4._encrypt_block` and `SM4._decrypt_block`:
`x[i+4] = x[i] ^ T(x[i+1] ^ x[i+2] ^ x[i+3] ^ rk)`, sliding the 4-word
window. -/
def sm4Rounds : List Nat → Nat × Nat × Nat × Nat → Nat × Nat × Nat × Nat
  | [], s => s
  | rk :: rks, (x0, x1, x2, x3) =>
      sm4Rounds rks (x1, x2, x3, x0 ^^^ sm4T (x1 ^^^ x2 ^^^ x3 ^^^ rk))

/-- The common body of `SM4._encrypt_block` / `SM4._decrypt_block`: unpack the
block into 4 words, run the 32 rounds over the given round-key sequence, and
emit the last four state words in reverse order (`[x[35], x[34], x[33],
x[32]]`). -/
def sm4CryptBlock (rks : List Nat) (block : Bytes) : Bytes :=
  match bytesToWords block with
  | [w0, w1, w2, w3] =>
      let (y0, y1, y2, y3) := sm4Rounds rks (w0, w1, w2, w3)
      wordsToBytes [y3, y2, y1, y0]
  | _ => []

/-- `SM4._encrypt_block`: the rounds consume `round_keys[0..31]` in order. -/
def sm4EncryptBlock (rks : List Nat) (block : Bytes) : Bytes :=
  sm4CryptBlock rks block

/-- `SM4._decrypt_block`: round `i` uses `round_keys[31 - i]`, i.e. the rounds
consume the round keys in reverse order. -/
def sm4DecryptBlock (rks : List Nat) (block : Bytes) : Bytes :=
  sm4CryptBlock rks.reverse block

/-- `SM4.__init__`: reject keys that are not exactly 16 bytes, otherwise
derive the round-key schedule. -/
def sm4New (key : Bytes) : Except Err (List Nat) :=
  if key.length ≠ 16 then .error .invalidKeyLength
  else .ok (sm4KeyExpansion key)

/-! ## GOST Kuznyechik block cipher (`GOSTKuznyechik`) -/

/-- The Kuznyechik S-box (`GOSTKuznyechik.PI`). -/
def gostPI : List Nat := [
  0xfc, 0xee, 0xdd, 0x11, 0xcf, 0x6e, 0x31, 0x16, 0xfb, 0xc4, 0xfa, 0xda, 0x23, 0xc5, 0x04, 0x4d,
  0xe9, 0x77, 0xf0, 0xdb, 0x93, 0x2e, 0x99, 0xba, 0x17, 0x36, 0xf1, 0xbb, 0x14, 0xcd, 0x5f, 0xc1,
  0xf9, 0x18, 0x65, 0x5a, 0xe2, 0x5c, 0xef, 0x21, 0x81, 0x1c, 0x3c, 0x42, 0x8b, 0x01, 0x8e, 0x4f,
  0x05, 0x84, 0x02, 0xae, 0xe3, 0x6a, 0x8f, 0xa0, 0x06, 0x0b, 0xed, 0x98, 0x7f, 0xd4, 0xd3, 0x1f,
  0xeb, 0x34, 0x2c, 0x51, 0xea, 0xc8, 0x48, 0xab, 0xf2, 0x2a, 0x68, 0xa2, 0xfd, 0x3a, 0xce, 0xcc,
  0xb5, 0x70, 0x0e, 0x56, 0x08, 0x0c, 0x76, 0x12, 0xbf, 0x72, 0x13, 0x47, 0x9c, 0xb7, 0x5d, 0x87,
  0x15, 0xa1, 0x96, 0x29, 0x10, 0x7b, 0x9a, 0xc7, 0xf3, 0x91, 0x78, 0x6f, 0x9d, 0x9e, 0xb2, 0xb1,
  0x32, 0x75, 0x19, 0x3d, 0xff, 0x35, 0x8a, 0x7e, 0x6d, 0x54, 0xc6, 0x80, 0xc3, 0xbd, 0x0d, 0x57,
  0xdf, 0xf5, 0x24, 0xa9, 0x3e, 0xa8, 0x43, 0xc9, 0xd7, 0x79, 0xd6, 0xf6, 0x7c, 0x22, 0xb9, 0x03,
  0xe0, 0x0f, 0xec, 0xde, 0x7a, 0x94, 0xb0, 0xbc, 0xdc, 0xe8, 0x28, 0x50, 0x4e, 0x33, 0x0a, 0x4a,
  0xa7, 0x97, 0x60, 0x73, 0x1e, 0x00, 0x62, 0x44, 0x1a, 0xb8, 0x38, 0x82, 0x64, 0x9f, 0x26, 0x41,
  0xad, 0x45, 0x46, 0x92, 0x27, 0x5e, 0x55, 0x2f, 0x8c, 0xa3, 0xa5, 0x7d, 0x69, 0xd5, 0x95, 0x3b,
  0x07, 0x58, 0xb3, 0x40, 0x86, 0xac, 0x1d, 0xf7, 0x30, 0x37, 0x6b, 0xe4, 0x88, 0xd9, 0xe7, 0x89,
  0xe1, 0x1b, 0x83, 0x49, 0x4c, 0x3f, 0xf8, 0xfe, 0x8d, 0x53, 0xaa, 0x90, 0xca, 0xd8, 0x85, 0x61,
  0x20, 0x71, 0x67, 0xa4, 0x2d, 0x2b, 0x09, 0x5b, 0xcb, 0x9b, 0x25, 0xd0, 0xbe, 0xe5, 0x6c, 0x52,
  0x59, 0xa6, 0x74, 0xd2, 0xe6, 0xf4, 0xb4, 0xc0, 0xd1, 0x66, 0xaf, 0xc2, 0x39, 0x4b, 0x63, 0xb6]

/-- `GOSTKuznyechik.L_VEC`: coefficients of the linear transform. -/
def gostLVec : List Nat := [148, 32, 133, 16, 194, 192, 1, 251, 1, 192, 194, 16, 133, 32, 148, 1]

/-- S-box lookup `PI[b]`. -/
def gostPiAt (b : Nat) : Nat := gostPI.getD b 0

/-- Lookup in the precomputed inverse S-box: `PI_INV[v] = i` for the `i` with
`PI[i] = v` (the table built in `GOSTKuznyechik.__init__`). -/
def gostPiInvAt (v : Nat) : Nat := gostPI.indexOf v

/-- `GOSTKuznyechik._s_transform`. -/
def gostS (block : Bytes) : Bytes := block.map gostPiAt

/-- `GOSTKuznyechik._s_inv_transform`. -/
def gostSInv (block : Bytes) : Bytes := block.map gostPiInvAt

/-- One iteration of the loop body of `GOSTKuznyechik._gf_mul`. -/
def gfMulStep (a b p : Nat) : Nat × Nat × Nat :=
  let p' := if b &&& 1 = 1 then p ^^^ a else p
  let hiBit := a &&& 0x80
  let a' := (a <<< 1) &&& 0xff
  let a'' := if hiBit ≠ 0 then a' ^^^ 0xc3 else a'
  (a'', b >>> 1, p')

/-- The 8-iteration loop of `GOSTKuznyechik._gf_mul`. -/
def gfMulAux : Nat → Nat → Nat → Nat → Nat
  | 0, _, _, p => p
  | n + 1, a, b, p =>
      let (a', b', p') := gfMulStep a b p
      gfMulAux n a' b' p'

/-- `GOSTKuznyechik._gf_mul`: GF(2^8) multiplication with reduction
polynomial `0xc3`. -/
def gfMul (a b : Nat) : Nat := gfMulAux 8 a b 0

/-- One iteration of the loop in `GOSTKuznyechik._l_transform`: XOR together
`gf_mul(result[i], L_VEC[i])` over the 16 positions and prepend the result,
dropping the trailing byte (`result = [t] + result[:-1]`). -/
def gostLRound (r : Bytes) : Bytes :=
  ((List.zipWith gfMul r gostLVec).foldl (· ^^^ ·) 0) :: r.dropLast

/-- `GOSTKuznyechik._l_transform`: 16 iterations of `gostLRound`. -/
def gostL (block : Bytes) : Bytes := gostLRound^[16] block

/-- One iteration of the loop in `GOSTKuznyechik._l_inv_transform`: take the
leading byte `t`, shift left (`result = result[1:] + [0]`), XOR
`gf_mul(t, L_VEC[i])` into positions `0..14`, and set position 15 to `t`. -/
def gostLInvRound (r : Bytes) : Bytes :=
  let t := r.headD 0
  List.zipWith (fun x v => x ^^^ gfMul t v) r.tail (gostLVec.take 15) ++ [t]

/-- `GOSTKuznyechik._l_inv_transform`: 16 iterations of `gostLInvRound`. -/
def gostLInv (block : Bytes) : Bytes := gostLInvRound^[16] block

/-- The iteration constants of `GOSTKuznyechik._key_expansion`:
`C[idx] = L(bytes([0]*15 + [idx + 1]))` for `idx` in `0..31`. -/
def gostC (idx : Nat) : Bytes := gostL (List.replicate 15 0 ++ [idx + 1])

/-- One Feistel sub-round of `GOSTKuznyechik._key_expansion`:
`t = L(S(k1 ^ C[idx])) ^ k2`, then `(k1, k2) = (t, k1)`. -/
def gostFeistelSteps : List Nat → Bytes × Bytes → Bytes × Bytes
  | [], p => p
  | idx :: rest, (k1, k2) =>
      gostFeistelSteps rest (zipXor (gostL (gostS (zipXor k1 (gostC idx)))) k2, k1)

/-- `GOSTKuznyechik._key_expansion`: split the 256-bit key into two halves,
then run 4 groups of 8 Feistel sub-rounds, recording the pair after each
group; 10 round keys in total. -/
def gostKeyExpansion (key : Bytes) : List Bytes :=
  let p0 := (key.take 16, key.drop 16)
  let g1 := gostFeistelSteps ((List.range 8).map (8 * 0 + ·)) p0
  let g2 := gostFeistelSteps ((List.range 8).map (8 * 1 + ·)) g1
  let g3 := gostFeistelSteps ((List.range 8).map (8 * 2 + ·)) g2
  let g4 := gostFeistelSteps ((List.range 8).map (8 * 3 + ·)) g3
  [p0.1, p0.2, g1.1, g1.2, g2.1, g2.2, g3.1, g3.2, g4.1, g4.2]

/-- The 9-round loop of `GOSTKuznyechik.encrypt_block`:
`result = L(S(result ^ round_keys[i]))`. -/
def gostEncRounds : List Bytes → Bytes → Bytes
  | [], r => r
  | k :: ks, r => gostEncRounds ks (gostL (gostS (zipXor r k)))

/-- `GOSTKuznyechik.encrypt_block`: reject blocks that are not 16 bytes, run
the 9 rounds over `round_keys[0..8]`, then XOR with `round_keys[9]`. -/
def gostEncryptBlock (rks : List Bytes) (block : Bytes) : Except Err Bytes :=
  if block.length ≠ 16 then .error .valueError
  else .ok (zipXor (gostEncRounds (rks.take 9) block) (rks.getD 9 []))

/-- The 9-round loop of `GOSTKuznyechik.decrypt_block`, over
`round_keys[8], ..., round_keys[0]`: `result = L_inv; S_inv; ^ round_keys[i]`. -/
def gostDecRounds : List Bytes → Bytes → Bytes
  | [], r => r
  | k :: ks, r => gostDecRounds ks (zipXor (gostSInv (gostLInv r)) k)

/-- `GOSTKuznyechik.decrypt_block`: reject blocks that are not 16 bytes, XOR
with `round_keys[9]`, then run the 9 inverse rounds with the round keys in
reverse order. -/
def gostDecryptBlock (rks : List Bytes) (block : Bytes) : Except Err Bytes :=
  if block.length ≠ 16 then .error .valueError
  else .ok (gostDecRounds (rks.take 9).reverse (zipXor block (rks.getD 9 [])))

/-- `GOSTKuznyechik.__init__`: reject keys that are not exactly 32 bytes,
otherwise derive the 10 round keys. -/
def gostNew (key : Bytes) : Except Err (List Bytes) :=
  if key.length ≠ 32 then .error .invalidKeyLength
  else .ok (gostKeyExpansion key)

/-! ## CBC mode with PKCS7 padding

Both ciphers share the same CBC loops and padding code
(`encrypt_cbc` / `decrypt_cbc` of `SM4` and `GOSTKuznyechik`). -/

/-- The block iteration `for i in range(0, len(data), 16): data[i:i+16]`,
written with explicit fuel so that it unfolds by kernel reduction (the fuel
`data.length` is always sufficient since every step consumes 16 > 0 bytes). -/
def toBlocksGo : Nat → Bytes → List Bytes
  | 0, _ => []
  | _, [] => []
  | fuel + 1, x :: xs => ((x :: xs).take 16) :: toBlocksGo fuel ((x :: xs).drop 16)

/-- Split a byte string into consecutive 16-byte blocks. -/
def toBlocks (data : Bytes) : List Bytes := toBlocksGo data.length data

/-- `pad_len = 16 - (len(plaintext) % 16); plaintext += bytes([pad_len] * pad_len)`. -/
def pkcs7Pad (p : Bytes) : Bytes :=
  p ++ List.replicate (16 - p.length % 16) (16 - p.length % 16)

/-- Python `s[-n:]` for a non-negative `n` (for `n = 0` this is the whole
string, since `s[-0:] = s[0:]`). -/
def pySliceLast (n : Nat) (s : Bytes) : Bytes :=
  if n = 0 then s else s.drop (s.length - n)

/-- Python `s[:-n]` for a non-negative `n` (for `n = 0` this is the empty
string, since `s[:-0] = s[:0]`). -/
def pySliceDropLast (n : Nat) (s : Bytes) : Bytes :=
  if n = 0 then [] else s.take (s.length - n)

/-- The padding-removal step shared by both `decrypt_cbc` implementations:
`pad_len = plaintext[-1]` (an `IndexError` on the empty string), then fail
with the padding error unless `pad_len <= 16` and all bytes of
`plaintext[-pad_len:]` equal `pad_len`; on success return
`plaintext[:-pad_len]`. -/
def pkcs7Unpad (s : Bytes) : Except Err Bytes :=
  match s.getLast? with
  | none => .error .indexError
  | some padLen =>
      if padLen > 16 ∨ ¬ (pySliceLast padLen s).all (· == padLen) then
        .error .invalidPadding
      else .ok (pySliceDropLast padLen s)

/-- The encryption loop of `encrypt_cbc`: XOR each block with the previous
ciphertext block (initially the IV), encrypt, and chain. -/
def cbcEncrypt (encB : Bytes → Bytes) : Bytes → List Bytes → List Bytes
  | _, [] => []
  | prev, b :: bs =>
      let c := encB (zipXor b prev)
      c :: cbcEncrypt encB c bs

/-- The decryption loop of `decrypt_cbc`: decrypt each block and XOR with the
previous ciphertext block (initially the IV). -/
def cbcDecrypt (decB : Bytes → Bytes) : Bytes → List Bytes → List Bytes
  | _, [] => []
  | prev, c :: cs => zipXor (decB c) prev :: cbcDecrypt decB c cs

/-- `SM4.encrypt_cbc`: check the IV length, PKCS7-pad, then run the CBC
encryption loop over the 16-byte blocks. -/
def sm4EncryptCbc (rks : List Nat) (plaintext iv : Bytes) : Except Err Bytes :=
  if iv.length ≠ 16 then .error .invalidIVLength
  else .ok (cbcEncrypt (sm4EncryptBlock rks) iv (toBlocks (pkcs7Pad plaintext))).flatten

/-- The byte stream accumulated by the loop of `SM4.decrypt_cbc` before
padding removal. -/
def sm4CbcStream (rks : List Nat) (ciphertext iv : Bytes) : Bytes :=
  (cbcDecrypt (sm4DecryptBlock rks) iv (toBlocks ciphertext)).flatten

/-- `SM4.decrypt_cbc`: check the IV length and that the ciphertext is a
multiple of the block size, run the CBC decryption loop, then remove the
PKCS7 padding. -/
def sm4DecryptCbc (rks : List Nat) (ciphertext iv : Bytes) : Except Err Bytes :=
  if iv.length ≠ 16 then .error .invalidIVLength
  else if ciphertext.length % 16 ≠ 0 then .error .invalidCiphertextLength
  else pkcs7Unpad (sm4CbcStream rks ciphertext iv)

/-- The CBC encryption loop for a block cipher whose single-block operation
can fail (`GOSTKuznyechik.encrypt_block` checks the block length). -/
def cbcEncryptM (encB : Bytes → Except Err Bytes) :
    Bytes → List Bytes → Except Err (List Bytes)
  | _, [] => .ok []
  | prev, b :: bs =>
      (encB (zipXor b prev)).bind fun c =>
        (cbcEncryptM encB c bs).map fun rest => c :: rest

/-- The CBC decryption loop for a block cipher whose single-block operation
can fail. -/
def cbcDecryptM (decB : Bytes → Except Err Bytes) :
    Bytes → List Bytes → Except Err (List Bytes)
  | _, [] => .ok []
  | prev, c :: cs =>
      (decB c).bind fun d =>
        (cbcDecryptM decB c cs).map fun rest => zipXor d prev :: rest

/-- `GOSTKuznyechik.encrypt_cbc`: identical in shape to `SM4.encrypt_cbc`. -/
def gostEncryptCbc (rks : List Bytes) (plaintext iv : Bytes) : Except Err Bytes :=
  if iv.length ≠ 16 then .error .invalidIVLength
  else (cbcEncryptM (gostEncryptBlock rks) iv (toBlocks (pkcs7Pad plaintext))).map List.flatten

/-- The byte stream accumulated by the loop of `GOSTKuznyechik.decrypt_cbc`
before padding removal. -/
def gostCbcStream (rks : List Bytes) (ciphertext iv : Bytes) : Except Err Bytes :=
  (cbcDecryptM (gostDecryptBlock rks) iv (toBlocks ciphertext)).map List.flatten

/-- `GOSTKuznyechik.decrypt_cbc`: identical in shape to `SM4.decrypt_cbc`. -/
def gostDecryptCbc (rks : List Bytes) (ciphertext iv : Bytes) : Except Err Bytes :=
  if iv.length ≠ 16 then .error .invalidIVLength
  else if ciphertext.length % 16 ≠ 0 then .error .invalidCiphertextLength
  else (gostCbcStream rks ciphertext iv).bind pkcs7Unpad

/-! ## SM3 streaming hash (`SM3`) -/

/-- `SM3.IV`: the fixed initial state words. -/
def sm3IV : List Nat := [
  0x7380166f, 0x4914b2b9, 0x172442d7, 0xda8a0600,
  0xa96f30bc, 0x163138aa, 0xe38dee4d, 0xb0fb0e4e]

/-- `SM3._ff`: boolean function, switching behaviour at round 16. -/
def sm3FF (x y z j : Nat) : Nat :=
  if j < 16 then x ^^^ y ^^^ z else (x &&& y) ||| (x &&& z) ||| (y &&& z)

/-- `SM3._gg`: boolean function, switching behaviour at round 16.  Python
`~x` on a masked 32-bit word is modelled as XOR with the 32-bit mask, which
agrees with `~x & z` for `z < 2^32`. -/
def sm3GG (x y z j : Nat) : Nat :=
  if j < 16 then x ^^^ y ^^^ z else (x &&& y) ||| ((x ^^^ 0xffffffff) &&& z)

/-- `SM3._p0`. -/
def sm3P0 (x : Nat) : Nat := x ^^^ rotl32 x 9 ^^^ rotl32 x 17

/-- `SM3._p1`. -/
def sm3P1 (x : Nat) : Nat := x ^^^ rotl32 x 15 ^^^ rotl32 x 23

/-- `SM3._t`: the round constant. -/
def sm3TConst (j : Nat) : Nat := if j < 16 then 0x79cc4519 else 0x7a879d8a

/-- One step of the message expansion of `SM3._compress`: with `j` the current
length of `w`, append
`P1(w[j-16] ^ w[j-9] ^ rotl(w[j-3], 15)) ^ rotl(w[j-13], 7) ^ w[j-6]`. -/
def sm3ExpandStep (w : List Nat) : List Nat :=
  let j := w.length
  w ++ [sm3P1 (w.getD (j - 16) 0 ^^^ w.getD (j - 9) 0 ^^^
          rotl32 (w.getD (j - 3) 0) 15) ^^^
        rotl32 (w.getD (j - 13) 0) 7 ^^^ w.getD (j - 6) 0]

/-- The expanded 68-word message schedule of `SM3._compress`. -/
def sm3W (block : Bytes) : List Nat := sm3ExpandStep^[52] (bytesToWords block)

/-- One round of the compression loop of `SM3._compress` over the eight
working registers. -/
def sm3Round (w wp : List Nat) (s : Nat × Nat × Nat × Nat × Nat × Nat × Nat × Nat)
    (j : Nat) : Nat × Nat × Nat × Nat × Nat × Nat × Nat × Nat :=
  let (a, b, c, d, e, f, g, h) := s
  let ss1 := rotl32 ((rotl32 a 12 + e + rotl32 (sm3TConst j) (j % 32)) &&& 0xffffffff) 7
  let ss2 := ss1 ^^^ rotl32 a 12
  let tt1 := (sm3FF a b c j + d + ss2 + wp.getD j 0) &&& 0xffffffff
  let tt2 := (sm3GG e f g j + h + ss1 + w.getD j 0) &&& 0xffffffff
  (tt1, a, rotl32 b 9, c, sm3P0 tt2, e, rotl32 f 19, g)

/-- `SM3._compress`: expand the message, run the 64 compression rounds, and
XOR-fold the result into the state. -/
def sm3Compress (hst : List Nat) (block : Bytes) : List Nat :=
  let w := sm3W block
  let wp := (List.range 64).map fun j => w.getD j 0 ^^^ w.getD (j + 4) 0
  let s0 := (hst.getD 0 0, hst.getD 1 0, hst.getD 2 0, hst.getD 3 0,
             hst.getD 4 0, hst.getD 5 0, hst.getD 6 0, hst.getD 7 0)
  let (a, b, c, d, e, f, g, h) := (List.range 64).foldl (sm3Round w wp) s0
  List.zipWith (fun x y => (x ^^^ y) &&& 0xffffffff) hst [a, b, c, d, e, f, g, h]

/-- The mutable state of an `SM3` object: state words `_h`, pending buffer
`_buffer`, total bytes processed `_length`. -/
structure SM3State where
  h : List Nat
  buffer : Bytes
  length : Nat
deriving DecidableEq, Repr

/-- `SM3.__init__`. -/
def sm3Init : SM3State := ⟨sm3IV, [], 0⟩

/-- The draining loop `while len(buffer) >= 64: compress(buffer[:64]);
buffer = buffer[64:]` shared by `SM3.update`, `SM3.digest`, and
`GOSTStreebog.update`, generic in the per-block state update, with explicit
fuel (the buffer length is always sufficient fuel, as each step consumes
64 > 0 bytes). -/
def drainGo {α : Type} (comp : α → Bytes → α) : Nat → α → Bytes → α × Bytes
  | 0, a, buf => (a, buf)
  | fuel + 1, a, buf =>
      if buf.length ≥ 64 then drainGo comp fuel (comp a (buf.take 64)) (buf.drop 64)
      else (a, buf)

/-- Compress full 64-byte blocks out of the buffer. -/
def drain {α : Type} (comp : α → Bytes → α) (a : α) (buf : Bytes) : α × Bytes :=
  drainGo comp buf.length a buf

/-- The draining loop of `SM3.update` / `SM3.digest`. -/
def sm3Drain (h : List Nat) (buf : Bytes) : List Nat × Bytes :=
  drain sm3Compress h buf

/-- `SM3.update`: append to the buffer, bump the byte count, and compress any
complete 64-byte blocks. -/
def sm3Update (s : SM3State) (data : Bytes) : SM3State :=
  let (h', buf') := sm3Drain s.h (s.buffer ++ data)
  ⟨h', buf', s.length + data.length⟩

/-- `struct.pack('>Q', n)`: the eight big-endian bytes of a 64-bit value. -/
def pack64 (n : Nat) : Bytes :=
  [n / 2 ^ 56 % 256, n / 2 ^ 48 % 256, n / 2 ^ 40 % 256, n / 2 ^ 32 % 256,
   n / 2 ^ 24 % 256, n / 2 ^ 16 % 256, n / 2 ^ 8 % 256, n % 256]

/-- `SM3.digest`: append `0x80`, zero-pad until the length is ≡ 56 mod 64,
append the 8-byte big-endian bit length (`struct.pack('>Q', ...)`: an error
if the bit length does not fit in 64 bits), compress the remaining blocks,
and emit the state words big-endian. -/
def sm3Digest (s : SM3State) : Except Err Bytes :=
  let bitLength := s.length * 8
  if bitLength ≥ 2 ^ 64 then .error .valueError
  else
    let zeros := (64 - (s.buffer.length + 1 + 8) % 64) % 64
    let buf := s.buffer ++ [0x80] ++ List.replicate zeros 0 ++ pack64 bitLength
    .ok (wordsToBytes (sm3Drain s.h buf).1)

/-- `SM3.hash`: hash data in one call. -/
def sm3Hash (data : Bytes) : Except Err Bytes := sm3Digest (sm3Update sm3Init data)

/-! ## GOST Streebog streaming hash (`GOSTStreebog`) -/

/-- `GOSTStreebog._add_mod512`, byte by byte with carry (index 0 first). -/
def addMod512Go : Bytes → Bytes → Nat → Bytes
  | a :: as, b :: bs, carry =>
      ((a + b + carry) &&& 0xff) :: addMod512Go as bs ((a + b + carry) >>> 8)
  | _, _, _ => []

/-- `GOSTStreebog._add_mod512`: add two 64-byte values with carry chain. -/
def addMod512 (a b : Bytes) : Bytes := addMod512Go a b 0

/-- `GOSTStreebog._s_transform`: the Kuznyechik S-box applied bytewise. -/
def streebogST (block : Bytes) : Bytes := block.map gostPiAt

/-- `GOSTStreebog._g`: the (simplified) compression function
`(S(h ^ n) ^ m) ^ h` — the source applies only the S-box, omitting the
standard's permutation and linear transforms (see the source comment
"Simplified - in production, use full L and P transforms"). -/
def streebogG (h n m : Bytes) : Bytes :=
  zipXor (zipXor (streebogST (zipXor h n)) m) h

/-- The mutable state of a `GOSTStreebog` object: `digest_size`, state `_h`,
block counter `_n`, checksum `_sigma`, pending buffer `_buffer`. -/
structure StreebogState where
  digestSize : Nat
  h : Bytes
  n : Bytes
  sigma : Bytes
  buffer : Bytes
deriving DecidableEq, Repr

/-- `GOSTStreebog.__init__` after the `digest_size` check: `_h` is 64 copies
of `0x01` for the 256-bit digest and of `0x00` for the 512-bit digest. -/
def streebogInit (digestSize : Nat) : StreebogState :=
  ⟨digestSize, List.replicate 64 (if digestSize = 32 then 0x01 else 0x00),
   List.replicate 64 0, List.replicate 64 0, []⟩

/-- `GOSTStreebog.__init__`: reject digest sizes other than 32 and 64. -/
def streebogNew (digestSize : Nat) : Except Err StreebogState :=
  if digestSize = 32 ∨ digestSize = 64 then .ok (streebogInit digestSize)
  else .error .valueError

/-- One step of the loop of `GOSTStreebog.update` on the `(_h, _n, _sigma)`
triple: compress one 64-byte block, add 512 (encoded as
`bytes([0]*63 + [0x02])` under `_add_mod512`'s byte order) to `_n`, and add
the block to `_sigma`. -/
def streebogStep : Bytes × Bytes × Bytes → Bytes → Bytes × Bytes × Bytes
  | (h, n, sigma), block =>
      (streebogG h n block,
       addMod512 n (List.replicate 63 0 ++ [0x02]),
       addMod512 sigma block)

/-- `GOSTStreebog.update`: append to the buffer, then compress any complete
64-byte blocks, updating `_h`, `_n`, and `_sigma` per block. -/
def streebogUpdate (st : StreebogState) (data : Bytes) : StreebogState :=
  let ((h, n, sigma), buf) := drain streebogStep (st.h, st.n, st.sigma) (st.buffer ++ data)
  ⟨st.digestSize, h, n, sigma, buf⟩

/-- `GOSTStreebog.digest`: pad the remaining buffer with `0x01` and zeros to
64 bytes, compress it, fold in the bit length (`bytes([len(buffer) * 8])`
raises a `ValueError` whenever `len(buffer) * 8 > 255`, i.e. whenever the
remaining buffer is 32 bytes or longer) and the checksum through two more
compressions, and emit the last 32 bytes (256-bit) or all 64 bytes
(512-bit). -/
def streebogDigest (st : StreebogState) : Except Err Bytes :=
  let remaining := st.buffer
  let padLen := 64 - remaining.length
  let padded := remaining ++ [0x01] ++ List.replicate (padLen - 1) 0
  let h1 := streebogG st.h st.n padded
  if remaining.length * 8 ≥ 256 then .error .valueError
  else
    let lengthBytes := [remaining.length * 8] ++ List.replicate 63 0
    let n1 := addMod512 st.n lengthBytes
    let sigma1 := addMod512 st.sigma padded
    let h2 := streebogG h1 (List.replicate 64 0) n1
    let h3 := streebogG h2 (List.replicate 64 0) sigma1
    .ok (if st.digestSize = 32 then h3.drop 32 else h3)

/-- `GOSTStreebog.hash`: hash data in one call. -/
def streebogHash (data : Bytes) (digestSize : Nat) : Except Err Bytes :=
  streebogDigest (streebogUpdate (streebogInit digestSize) data)

/-! ## EncryptionManager façade -/

/-- `EncryptionAlgorithm`: the supported algorithm tags. -/
inductive EncryptionAlgorithm where
  | sm4Cbc | sm4Gcm | sm2 | sm3
  | gostKuznyechikCbc | gostKuznyechikGcm | gostMagmaCbc
  | gostStreebog256 | gostStreebog512
  | aes256Gcm | aes256Cbc
deriving DecidableEq, Repr

/-- `EncryptedData`: container for encrypted data with metadata. -/
structure EncryptedData where
  ciphertext : Bytes
  iv : Bytes
  tag : Option Bytes
  algorithm : EncryptionAlgorithm
  keyId : Option String := none
deriving DecidableEq, Repr

/-- The state of an `EncryptionManager`: the optional cipher instances are
represented by their round-key schedules (the only state a cipher object
carries). -/
structure ManagerState where
  sm4Cipher : Option (List Nat) := none
  gostCipher : Option (List Bytes) := none
deriving DecidableEq, Repr

/-- `EncryptionManager.initialize_sm4`. -/
def managerInitSm4 (m : ManagerState) (key : Bytes) : Except Err ManagerState :=
  (sm4New key).map fun rks => { m with sm4Cipher := some rks }

/-- `EncryptionManager.initialize_gost`. -/
def managerInitGost (m : ManagerState) (key : Bytes) : Except Err ManagerState :=
  (gostNew key).map fun rks => { m with gostCipher := some rks }

/-- `EncryptionManager.encrypt`.  The fresh random IV drawn by
`secrets.token_bytes(16)` is passed in as the argument `iv` (always 16
bytes). -/
def managerEncrypt (m : ManagerState) (plaintext : Bytes)
    (algorithm : EncryptionAlgorithm) (iv : Bytes) : Except Err EncryptedData :=
  if algorithm = .sm4Cbc ∨ algorithm = .sm4Gcm then
    match m.sm4Cipher with
    | none => .error .notInitialized
    | some rks =>
        (sm4EncryptCbc rks plaintext iv).map fun ct =>
          { ciphertext := ct, iv := iv, tag := none, algorithm := algorithm }
  else if algorithm = .gostKuznyechikCbc ∨ algorithm = .gostKuznyechikGcm then
    match m.gostCipher with
    | none => .error .notInitialized
    | some rks =>
        (gostEncryptCbc rks plaintext iv).map fun ct =>
          { ciphertext := ct, iv := iv, tag := none, algorithm := algorithm }
  else .error .unsupportedAlgorithm

/-- `EncryptionManager.decrypt`. -/
def managerDecrypt (m : ManagerState) (ed : EncryptedData) : Except Err Bytes :=
  if ed.algorithm = .sm4Cbc ∨ ed.algorithm = .sm4Gcm then
    match m.sm4Cipher with
    | none => .error .notInitialized
    | some rks => sm4DecryptCbc rks ed.ciphertext ed.iv
  else if ed.algorithm = .gostKuznyechikCbc ∨ ed.algorithm = .gostKuznyechikGcm then
    match m.gostCipher with
    | none => .error .notInitialized
    | some rks => gostDecryptCbc rks ed.ciphertext ed.iv
  else .error .unsupportedAlgorithm

/-! ## Helper lemmas: bit-level bounds and byte/word packing -/

theorem xor_lt_pow (n : Nat) {x y : Nat} (hx : x < 2 ^ n) (hy : y < 2 ^ n) :
    x ^^^ y < 2 ^ n := by
  have : Nat.xor x y < 2 ^ n := by
    unfold Nat.xor
    exact Nat.bitwise_lt hx hy
  exact this

theorem or_lt_pow (n : Nat) {x y : Nat} (hx : x < 2 ^ n) (hy : y < 2 ^ n) :
    x ||| y < 2 ^ n := by
  have : Nat.lor x y < 2 ^ n := by
    unfold Nat.lor
    exact Nat.bitwise_lt hx hy
  exact this

theorem rotl32_lt (x n : Nat) : rotl32 x n < 2 ^ 32 := by
  have h := Nat.and_le_right (n := (x <<< n) ||| (x >>> (32 - n))) (m := 0xffffffff)
  unfold rotl32
  omega

theorem mask32_lt (x : Nat) : x &&& 0xffffffff < 2 ^ 32 := by
  have h := Nat.and_le_right (n := x) (m := 0xffffffff)
  omega

set_option maxRecDepth 4096 in
theorem sm4SboxAt_lt (i : Nat) : sm4SboxAt i < 256 := by
  unfold sm4SboxAt
  rcases Nat.lt_or_ge i sm4SBOX.length with h | h
  · rw [List.getD_eq_getElem _ _ h]
    exact (by decide : ∀ x ∈ sm4SBOX, x < 256) _ (List.getElem_mem h)
  · rw [List.getD_eq_default _ _ h]
    decide

theorem sm4SboxTransform_lt (x : Nat) : sm4SboxTransform x < 2 ^ 32 := by
  unfold sm4SboxTransform
  have h0 := sm4SboxAt_lt ((x >>> 24) &&& 0xff)
  have h1 := sm4SboxAt_lt ((x >>> 16) &&& 0xff)
  have h2 := sm4SboxAt_lt ((x >>> 8) &&& 0xff)
  have h3 := sm4SboxAt_lt (x &&& 0xff)
  have e : (256 : Nat) = 2 ^ 8 := by norm_num
  rw [e] at h0 h1 h2 h3
  have s0 : sm4SboxAt ((x >>> 24) &&& 0xff) <<< 24 < 2 ^ 32 := by
    simpa using Nat.shiftLeft_lt h0 (m := 24)
  have s1 : sm4SboxAt ((x >>> 16) &&& 0xff) <<< 16 < 2 ^ 32 := by
    have := Nat.shiftLeft_lt h1 (m := 16)
    calc sm4SboxAt ((x >>> 16) &&& 0xff) <<< 16 < 2 ^ (8 + 16) := this
    _ ≤ 2 ^ 32 := Nat.pow_le_pow_right (by norm_num) (by norm_num)
  have s2 : sm4SboxAt ((x >>> 8) &&& 0xff) <<< 8 < 2 ^ 32 := by
    have := Nat.shiftLeft_lt h2 (m := 8)
    calc sm4SboxAt ((x >>> 8) &&& 0xff) <<< 8 < 2 ^ (8 + 8) := this
    _ ≤ 2 ^ 32 := Nat.pow_le_pow_right (by norm_num) (by norm_num)
  have s3 : sm4SboxAt (x &&& 0xff) < 2 ^ 32 :=
    lt_of_lt_of_le h3 (Nat.pow_le_pow_right (by norm_num) (by norm_num))
  exact or_lt_pow 32 (or_lt_pow 32 (or_lt_pow 32 s0 s1) s2) s3

theorem sm4T_lt (x : Nat) : sm4T x < 2 ^ 32 := by
  unfold sm4T sm4L
  have h := sm4SboxTransform_lt x
  exact xor_lt_pow 32
    (xor_lt_pow 32 (xor_lt_pow 32 (xor_lt_pow 32 h (rotl32_lt _ _)) (rotl32_lt _ _))
      (rotl32_lt _ _)) (rotl32_lt _ _)

theorem byte_xor_lt {a b : Nat} (ha : a < 256) (hb : b < 256) : a ^^^ b < 256 := by
  have e : (256 : Nat) = 2 ^ 8 := by norm_num
  rw [e] at ha hb ⊢
  exact xor_lt_pow 8 ha hb

/-- `zipXor` of two byte strings is a byte string of the shorter length. -/
theorem zipXor_length (a b : Bytes) : (zipXor a b).length = min a.length b.length := by
  simp [zipXor]

theorem zipXor_isBytes : ∀ {a b : Bytes}, isBytes a → isBytes b → isBytes (zipXor a b)
  | [], _, _, _ => by intro x hx; simp [zipXor] at hx
  | _ :: _, [], _, _ => by intro x hx; simp [zipXor] at hx
  | x :: xs, y :: ys, ha, hb => by
      intro v hv
      simp only [zipXor, List.zipWith_cons_cons, List.mem_cons] at hv
      rcases hv with rfl | hv
      · exact byte_xor_lt (ha x (by simp)) (hb y (by simp))
      · exact zipXor_isBytes (fun b hb' => ha b (by simp [hb'])) (fun b hb' => hb b (by simp [hb'])) v hv

/-- XOR-ing twice with the same byte string is the identity (on a list no
longer than the mask). -/
theorem zipXor_zipXor (a b : Bytes) (h : a.length ≤ b.length) :
    zipXor (zipXor a b) b = a := by
  induction a generalizing b with
  | nil => simp [zipXor]
  | cons x xs ih =>
      cases b with
      | nil => simp at h
      | cons y ys =>
          simp only [zipXor, List.zipWith_cons_cons]
          rw [show List.zipWith (· ^^^ ·) (List.zipWith (· ^^^ ·) xs ys) ys = zipXor (zipXor xs ys) ys from rfl]
          rw [ih ys (by simpa using h)]
          simp [Nat.xor_cancel_right]

/-- Unpacking the packed bytes of a word below `2^32` recovers the word. -/
theorem bytesToWords_wordToBytes (w : Nat) (hw : w < 2 ^ 32) (rest : Bytes) :
    bytesToWords (wordToBytes w ++ rest) = w :: bytesToWords rest := by
  simp only [wordToBytes, List.cons_append, List.nil_append, bytesToWords]
  congr 1
  omega

/-- Packing the words of a byte string (whose length is a multiple of 4)
recovers the byte string. -/
theorem wordsToBytes_bytesToWords :
    ∀ b : Bytes, b.length % 4 = 0 → isBytes b → wordsToBytes (bytesToWords b) = b
  | [], _, _ => rfl
  | [_], h, _ => by simp at h
  | [_, _], h, _ => by simp at h
  | [_, _, _], h, _ => by simp at h
  | b0 :: b1 :: b2 :: b3 :: rest, h, hb => by
      have h4 : rest.length % 4 = 0 := by simp at h; omega
      have hb4 : isBytes rest := fun x hx => hb x (by simp [hx])
      have ih := wordsToBytes_bytesToWords rest h4 hb4
      have e0 : b0 < 256 := hb b0 (by simp)
      have e1 : b1 < 256 := hb b1 (by simp)
      have e2 : b2 < 256 := hb b2 (by simp)
      have e3 : b3 < 256 := hb b3 (by simp)
      simp only [bytesToWords, wordsToBytes, wordToBytes, ih, List.cons_append,
        List.nil_append, List.cons.injEq]
      refine ⟨by omega, by omega, by omega, by omega, trivial⟩

/-- The words of a byte string are all below `2^32`. -/
theorem bytesToWords_lt :
    ∀ b : Bytes, isBytes b → ∀ w ∈ bytesToWords b, w < 2 ^ 32
  | [], _, w, hw => by simp [bytesToWords] at hw
  | [_], _, w, hw => by simp [bytesToWords] at hw
  | [_, _], _, w, hw => by simp [bytesToWords] at hw
  | [_, _, _], _, w, hw => by simp [bytesToWords] at hw
  | b0 :: b1 :: b2 :: b3 :: rest, hb, w, hw => by
      simp only [bytesToWords, List.mem_cons] at hw
      rcases hw with rfl | hw
      · have e0 : b0 < 256 := hb b0 (by simp)
        have e1 : b1 < 256 := hb b1 (by simp)
        have e2 : b2 < 256 := hb b2 (by simp)
        have e3 : b3 < 256 := hb b3 (by simp)
        omega
      · exact bytesToWords_lt rest (fun x hx => hb x (by simp [hx])) w hw

/-- A list of length four is literally a four-element list. -/
theorem list_length_four {α : Type} (l : List α) (h : l.length = 4) :
    ∃ a b c d, l = [a, b, c, d] := by
  rcases l with _ | ⟨a, l⟩
  · simp at h
  rcases l with _ | ⟨b, l⟩
  · simp at h
  rcases l with _ | ⟨c, l⟩
  · simp at h
  rcases l with _ | ⟨d, l⟩
  · simp at h
  rcases l with _ | ⟨e, l⟩
  · exact ⟨a, b, c, d, rfl⟩
  · simp at h

theorem bytesToWords_length : ∀ b : Bytes, (bytesToWords b).length = b.length / 4
  | [] => by simp [bytesToWords]
  | [_] => by simp [bytesToWords]
  | [_, _] => by simp [bytesToWords]
  | [_, _, _] => by simp [bytesToWords]
  | _ :: _ :: _ :: _ :: rest => by
      simp only [bytesToWords, List.length_cons, bytesToWords_length rest]
      omega

/-- A 16-byte block unpacks to exactly four words. -/
theorem bytesToWords_four (b : Bytes) (hb : b.length = 16) :
    ∃ w0 w1 w2 w3, bytesToWords b = [w0, w1, w2, w3] :=
  list_length_four _ (by rw [bytesToWords_length, hb])

/-- `wordToBytes` always produces bytes. -/
theorem wordToBytes_isBytes (w : Nat) : isBytes (wordToBytes w) := by
  intro x hx
  simp only [wordToBytes, List.mem_cons, List.not_mem_nil, or_false] at hx
  rcases hx with rfl | rfl | rfl | rfl <;> omega

theorem wordsToBytes_isBytes : ∀ ws : List Nat, isBytes (wordsToBytes ws)
  | [] => by intro x hx; simp [wordsToBytes] at hx
  | w :: ws => by
      intro x hx
      simp only [wordsToBytes, List.mem_append] at hx
      rcases hx with hx | hx
      · exact wordToBytes_isBytes w x hx
      · exact wordsToBytes_isBytes ws x hx

theorem wordsToBytes_length : ∀ ws : List Nat, (wordsToBytes ws).length = 4 * ws.length
  | [] => rfl
  | w :: ws => by
      simp only [wordsToBytes, List.length_append, wordsToBytes_length ws]
      simp [wordToBytes]
      ring

/-! ## SM4: the decryption rounds invert the encryption rounds -/

theorem sm4Rounds_append (l₁ l₂ : List Nat) (s : Nat × Nat × Nat × Nat) :
    sm4Rounds (l₁ ++ l₂) s = sm4Rounds l₂ (sm4Rounds l₁ s) := by
  induction l₁ generalizing s with
  | nil => rfl
  | cons k ks ih =>
      obtain ⟨x0, x1, x2, x3⟩ := s
      simp only [List.cons_append, sm4Rounds]
      exact ih _

theorem xor_three_comm (a b c : Nat) : a ^^^ b ^^^ c = c ^^^ b ^^^ a := by
  rw [Nat.xor_assoc, Nat.xor_comm b c, ← Nat.xor_assoc, Nat.xor_comm a c, Nat.xor_assoc,
    Nat.xor_comm a b, ← Nat.xor_assoc]

/-- Running the SM4 round function over the reversed round-key sequence,
starting from the reversed output state, recovers the reversed input state:
the structural fact behind `_decrypt_block` inverting `_encrypt_block`. -/
theorem sm4Rounds_reverse (rks : List Nat) :
    ∀ x0 x1 x2 x3 y0 y1 y2 y3 : Nat,
      sm4Rounds rks (x0, x1, x2, x3) = (y0, y1, y2, y3) →
      sm4Rounds rks.reverse (y3, y2, y1, y0) = (x3, x2, x1, x0) := by
  induction rks using List.reverseRecOn with
  | nil =>
      intro x0 x1 x2 x3 y0 y1 y2 y3 h
      simp only [sm4Rounds, Prod.mk.injEq] at h
      obtain ⟨rfl, rfl, rfl, rfl⟩ := h
      rfl
  | append_singleton l k ih =>
      intro x0 x1 x2 x3 y0 y1 y2 y3 h
      rw [sm4Rounds_append] at h
      obtain ⟨⟨p, q, r, s⟩, hps⟩ : ∃ t, sm4Rounds l (x0, x1, x2, x3) = t := ⟨_, rfl⟩
      rw [hps] at h
      simp only [sm4Rounds, Prod.mk.injEq] at h
      obtain ⟨rfl, rfl, rfl, rfl⟩ := h
      rw [List.reverse_append, List.reverse_singleton, List.singleton_append]
      simp only [sm4Rounds]
      rw [show s ^^^ r ^^^ q = q ^^^ r ^^^ s from xor_three_comm s r q,
        Nat.xor_cancel_right]
      exact ih x0 x1 x2 x3 p q r s hps

theorem bytesToWords_wordsToBytes :
    ∀ ws : List Nat, (∀ w ∈ ws, w < 2 ^ 32) → bytesToWords (wordsToBytes ws) = ws
  | [], _ => rfl
  | w :: ws, h => by
      simp only [wordsToBytes]
      rw [bytesToWords_wordToBytes w (h w (by simp))]
      rw [bytesToWords_wordsToBytes ws (fun v hv => h v (by simp [hv]))]

/-- The word-level state stays below `2^32` through the SM4 rounds. -/
theorem sm4Rounds_lt :
    ∀ (rks : List Nat) (x0 x1 x2 x3 : Nat),
      x0 < 2 ^ 32 → x1 < 2 ^ 32 → x2 < 2 ^ 32 → x3 < 2 ^ 32 →
      (sm4Rounds rks (x0, x1, x2, x3)).1 < 2 ^ 32 ∧
      (sm4Rounds rks (x0, x1, x2, x3)).2.1 < 2 ^ 32 ∧
      (sm4Rounds rks (x0, x1, x2, x3)).2.2.1 < 2 ^ 32 ∧
      (sm4Rounds rks (x0, x1, x2, x3)).2.2.2 < 2 ^ 32
  | [], _, _, _, _, h0, h1, h2, h3 => ⟨h0, h1, h2, h3⟩
  | rk :: rks, x0, x1, x2, x3, h0, h1, h2, h3 => by
      simp only [sm4Rounds]
      exact sm4Rounds_lt rks _ _ _ _ h1 h2 h3 (xor_lt_pow 32 h0 (sm4T_lt _))

/-- Evaluation rule for `sm4CryptBlock` once the block words and the round
output are known. -/
theorem sm4CryptBlock_spec (rks : List Nat) (b : Bytes) (w0 w1 w2 w3 y0 y1 y2 y3 : Nat)
    (hw : bytesToWords b = [w0, w1, w2, w3])
    (hy : sm4Rounds rks (w0, w1, w2, w3) = (y0, y1, y2, y3)) :
    sm4CryptBlock rks b = wordsToBytes [y3, y2, y1, y0] := by
  unfold sm4CryptBlock
  rw [hw]
  show (match sm4Rounds rks (w0, w1, w2, w3) with
        | (a, b, c, d) => wordsToBytes [d, c, b, a]) = wordsToBytes [y3, y2, y1, y0]
  rw [hy]

/-- `_decrypt_block` inverts `_encrypt_block` on every 16-byte block, for any
round-key schedule. -/
theorem sm4_block_roundtrip (rks : List Nat) (b : Bytes)
    (hl : b.length = 16) (hb : isBytes b) :
    sm4DecryptBlock rks (sm4EncryptBlock rks b) = b := by
  obtain ⟨w0, w1, w2, w3, hw⟩ := bytesToWords_four b hl
  have hwlt := bytesToWords_lt b hb
  rw [hw] at hwlt
  have h0 : w0 < 2 ^ 32 := hwlt _ (by simp)
  have h1 : w1 < 2 ^ 32 := hwlt _ (by simp)
  have h2 : w2 < 2 ^ 32 := hwlt _ (by simp)
  have h3 : w3 < 2 ^ 32 := hwlt _ (by simp)
  obtain ⟨⟨y0, y1, y2, y3⟩, hy⟩ : ∃ t, sm4Rounds rks (w0, w1, w2, w3) = t := ⟨_, rfl⟩
  have hylt := sm4Rounds_lt rks w0 w1 w2 w3 h0 h1 h2 h3
  rw [hy] at hylt
  obtain ⟨g0, g1, g2, g3⟩ := hylt
  have henc : sm4EncryptBlock rks b = wordsToBytes [y3, y2, y1, y0] :=
    sm4CryptBlock_spec rks b w0 w1 w2 w3 y0 y1 y2 y3 hw hy
  have hdecw : bytesToWords (wordsToBytes [y3, y2, y1, y0]) = [y3, y2, y1, y0] := by
    apply bytesToWords_wordsToBytes
    intro v hv
    simp only [List.mem_cons, List.not_mem_nil, or_false] at hv
    rcases hv with rfl | rfl | rfl | rfl <;> assumption
  have hrev : sm4Rounds rks.reverse (y3, y2, y1, y0) = (w3, w2, w1, w0) :=
    sm4Rounds_reverse rks w0 w1 w2 w3 y0 y1 y2 y3 hy
  have hdec : sm4DecryptBlock rks (wordsToBytes [y3, y2, y1, y0]) =
      wordsToBytes [w0, w1, w2, w3] :=
    sm4CryptBlock_spec rks.reverse _ y3 y2 y1 y0 w3 w2 w1 w0 hdecw hrev
  rw [henc, hdec, ← hw]
  exact wordsToBytes_bytesToWords b (by omega) hb

/-- `sm4CryptBlock` of a 16-byte block is again a 16-byte block of bytes. -/
theorem sm4CryptBlock_length (rks : List Nat) (b : Bytes) (hl : b.length = 16) :
    (sm4CryptBlock rks b).length = 16 ∧ isBytes (sm4CryptBlock rks b) := by
  obtain ⟨w0, w1, w2, w3, hw⟩ := bytesToWords_four b hl
  obtain ⟨⟨y0, y1, y2, y3⟩, hy⟩ : ∃ t, sm4Rounds rks (w0, w1, w2, w3) = t := ⟨_, rfl⟩
  rw [sm4CryptBlock_spec rks b w0 w1 w2 w3 y0 y1 y2 y3 hw hy]
  exact ⟨by rw [wordsToBytes_length]; rfl, wordsToBytes_isBytes _⟩

/-! ## `toBlocks`: splitting into 16-byte blocks -/

theorem toBlocksGo_congr :
    ∀ (f1 f2 : Nat) (l : Bytes), l.length ≤ f1 → l.length ≤ f2 →
      toBlocksGo f1 l = toBlocksGo f2 l
  | f1, f2, [], _, _ => by cases f1 <;> cases f2 <;> rfl
  | f1 + 1, f2 + 1, x :: xs, h1, h2 => by
      simp only [toBlocksGo]
      congr 1
      apply toBlocksGo_congr
      · simp at h1 ⊢; omega
      · simp at h2 ⊢; omega
  | 0, _, x :: xs, h1, _ => by simp at h1
  | _ + 1, 0, x :: xs, _, h2 => by simp at h2

theorem toBlocks_step (l : Bytes) (h : l ≠ []) :
    toBlocks l = l.take 16 :: toBlocks (l.drop 16) := by
  rcases l with _ | ⟨x, xs⟩
  · exact absurd rfl h
  · show toBlocksGo (x :: xs).length (x :: xs) = _
    rw [List.length_cons, toBlocksGo]
    congr 1
    apply toBlocksGo_congr
    · simp
    · simp

theorem toBlocks_append16 (b rest : Bytes) (hb : b.length = 16) :
    toBlocks (b ++ rest) = b :: toBlocks rest := by
  have hne : b ++ rest ≠ [] := by
    intro h
    have := congrArg List.length h
    simp [hb] at this
  rw [toBlocks_step _ hne]
  congr 1
  · rw [List.take_append_eq_append_take, hb]
    simp [← hb]
  · rw [List.drop_append_eq_append_drop, hb]
    simp [← hb]

theorem toBlocks_flatten_blocks :
    ∀ bs : List Bytes, (∀ b ∈ bs, b.length = 16) → toBlocks bs.flatten = bs
  | [], _ => rfl
  | b :: bs, h => by
      rw [List.flatten_cons, toBlocks_append16 b _ (h b (by simp))]
      rw [toBlocks_flatten_blocks bs (fun x hx => h x (by simp [hx]))]

theorem toBlocks_flatten (l : Bytes) (h : l.length % 16 = 0) :
    (toBlocks l).flatten = l := by
  by_cases hl : l = []
  · subst hl; rfl
  · rw [toBlocks_step l hl]
    have hpos : l.length ≠ 0 := by simpa [List.length_eq_zero] using hl
    have hlen : 16 ≤ l.length := by omega
    have ih := toBlocks_flatten (l.drop 16) (by simp [List.length_drop]; omega)
    simp [List.flatten_cons, ih]
termination_by l.length
decreasing_by simp [List.length_drop]; omega

theorem toBlocks_length_mem (l : Bytes) (h : l.length % 16 = 0) :
    ∀ b ∈ toBlocks l, b.length = 16 := by
  by_cases hl : l = []
  · subst hl; intro b hb; simp [toBlocks, toBlocksGo] at hb
  · rw [toBlocks_step l hl]
    have hpos : l.length ≠ 0 := by simpa [List.length_eq_zero] using hl
    have hlen : 16 ≤ l.length := by omega
    intro b hb
    rcases List.mem_cons.mp hb with rfl | hb
    · simp [List.length_take]; omega
    · exact toBlocks_length_mem (l.drop 16) (by simp [List.length_drop]; omega) b hb
termination_by l.length
decreasing_by simp [List.length_drop]; omega

theorem toBlocks_isBytes (l : Bytes) (hl : isBytes l) (h : l.length % 16 = 0) :
    ∀ b ∈ toBlocks l, isBytes b := by
  intro b hb x hx
  apply hl
  rw [← toBlocks_flatten l h]
  exact List.mem_flatten.mpr ⟨b, hb, hx⟩

theorem flatten_length_16 :
    ∀ bs : List Bytes, (∀ b ∈ bs, b.length = 16) → bs.flatten.length = 16 * bs.length
  | [], _ => rfl
  | b :: bs, h => by
      rw [List.flatten_cons, List.length_append, h b (by simp),
        flatten_length_16 bs (fun x hx => h x (by simp [hx]))]
      simp [List.length_cons]
      ring

/-! ## CBC round trip -/

theorem cbcEncrypt_mem (encB : Bytes → Bytes)
    (hprop : ∀ x, x.length = 16 → isBytes x → (encB x).length = 16 ∧ isBytes (encB x)) :
    ∀ (bs : List Bytes) (prev : Bytes),
      (∀ b ∈ bs, b.length = 16 ∧ isBytes b) → prev.length = 16 → isBytes prev →
      ∀ c ∈ cbcEncrypt encB prev bs, c.length = 16 ∧ isBytes c
  | [], _, _, _, _ => by intro c hc; simp [cbcEncrypt] at hc
  | b :: bs, prev, hbs, hp, hpb => by
      intro c hc
      have hx : (zipXor b prev).length = 16 ∧ isBytes (zipXor b prev) := by
        constructor
        · simp [zipXor_length, (hbs b (by simp)).1, hp]
        · exact zipXor_isBytes (hbs b (by simp)).2 hpb
      have he := hprop _ hx.1 hx.2
      simp only [cbcEncrypt, List.mem_cons] at hc
      rcases hc with rfl | hc
      · exact he
      · exact cbcEncrypt_mem encB hprop bs _ (fun x hx2 => hbs x (by simp [hx2]))
          he.1 he.2 c hc

theorem cbcDecrypt_cbcEncrypt (encB decB : Bytes → Bytes)
    (hprop : ∀ x, x.length = 16 → isBytes x → (encB x).length = 16 ∧ isBytes (encB x))
    (hinv : ∀ x, x.length = 16 → isBytes x → decB (encB x) = x) :
    ∀ (bs : List Bytes) (prev : Bytes),
      (∀ b ∈ bs, b.length = 16 ∧ isBytes b) → prev.length = 16 → isBytes prev →
      cbcDecrypt decB prev (cbcEncrypt encB prev bs) = bs
  | [], _, _, _, _ => rfl
  | b :: bs, prev, hbs, hp, hpb => by
      have hx : (zipXor b prev).length = 16 ∧ isBytes (zipXor b prev) := by
        constructor
        · simp [zipXor_length, (hbs b (by simp)).1, hp]
        · exact zipXor_isBytes (hbs b (by simp)).2 hpb
      have he := hprop _ hx.1 hx.2
      simp only [cbcEncrypt, cbcDecrypt]
      rw [hinv _ hx.1 hx.2]
      rw [zipXor_zipXor b prev (by rw [(hbs b (by simp)).1, hp])]
      rw [cbcDecrypt_cbcEncrypt encB decB hprop hinv bs _
        (fun x hx2 => hbs x (by simp [hx2])) he.1 he.2]

/-! ## PKCS7 padding -/

theorem pkcs7Pad_length (p : Bytes) :
    (pkcs7Pad p).length = p.length + (16 - p.length % 16) := by
  simp [pkcs7Pad]

theorem pkcs7Pad_mod (p : Bytes) : (pkcs7Pad p).length % 16 = 0 := by
  rw [pkcs7Pad_length]
  omega

theorem pkcs7Pad_isBytes (p : Bytes) (hp : isBytes p) : isBytes (pkcs7Pad p) := by
  intro x hx
  rcases List.mem_append.mp hx with hx | hx
  · exact hp x hx
  · have := List.eq_of_mem_replicate hx
    omega

/-- Removing the padding that `pkcs7Pad` added recovers the plaintext. -/
theorem pkcs7Unpad_pad (p : Bytes) : pkcs7Unpad (pkcs7Pad p) = .ok p := by
  set m := 16 - p.length % 16 with hm
  have hm1 : 1 ≤ m := by omega
  have hm16 : m ≤ 16 := by omega
  obtain ⟨k, hk⟩ : ∃ k, m = k + 1 := ⟨m - 1, by omega⟩
  have hrep : List.replicate m m = List.replicate (m - 1) m ++ [m] := by
    rw [hk]
    simp [List.replicate_succ']
  have hlast : (pkcs7Pad p).getLast? = some m := by
    unfold pkcs7Pad
    rw [← hm, hrep, List.getLast?_append_of_ne_nil, List.getLast?_append_of_ne_nil]
    · rfl
    · simp
    · simp
  have hslice : pySliceLast m (pkcs7Pad p) = List.replicate m m := by
    unfold pySliceLast
    rw [if_neg (by omega)]
    rw [pkcs7Pad_length, ← hm]
    have : p.length + (16 - p.length % 16) - m = p.length := by omega
    rw [this]
    unfold pkcs7Pad
    rw [← hm, List.drop_left]
  have hall : (pySliceLast m (pkcs7Pad p)).all (· == m) = true := by
    rw [hslice]
    simp [List.all_eq_true]
  unfold pkcs7Unpad
  rw [hlast]
  simp only [hall]
  rw [if_neg (by simp [hall]; omega)]
  congr 1
  unfold pySliceDropLast
  rw [if_neg (by omega), pkcs7Pad_length, ← hm]
  have : p.length + (16 - p.length % 16) - m = p.length := by omega
  rw [this]
  unfold pkcs7Pad
  rw [← hm, List.take_left]

/-! ## Claim C1: SM4 CBC round trip -/

/-- C1: for every 16-byte key `k`, every 16-byte IV, and every plaintext `p`
of any length (including 0), `SM4(k).decrypt_cbc(SM4(k).encrypt_cbc(p, iv),
iv) == p`. -/
theorem c1_sm4_cbc_roundtrip (key p iv : Bytes)
    (hkey : key.length = 16) (hkeyb : isBytes key) (hp : isBytes p)
    (hiv : iv.length = 16) (hivb : isBytes iv) :
    ∃ ct, sm4EncryptCbc (sm4KeyExpansion key) p iv = .ok ct ∧
      sm4DecryptCbc (sm4KeyExpansion key) ct iv = .ok p := by
  set rks := sm4KeyExpansion key with hrks
  have hivgood : ¬ iv.length ≠ 16 := by omega
  have hpadmod := pkcs7Pad_mod p
  have hpadb := pkcs7Pad_isBytes p hp
  have hblocks : ∀ b ∈ toBlocks (pkcs7Pad p), b.length = 16 ∧ isBytes b := fun b hb =>
    ⟨toBlocks_length_mem _ hpadmod b hb, toBlocks_isBytes _ hpadb hpadmod b hb⟩
  have hprop : ∀ x : Bytes, x.length = 16 → isBytes x →
      (sm4EncryptBlock rks x).length = 16 ∧ isBytes (sm4EncryptBlock rks x) :=
    fun x hx _ => sm4CryptBlock_length rks x hx
  have hinv : ∀ x : Bytes, x.length = 16 → isBytes x →
      sm4DecryptBlock rks (sm4EncryptBlock rks x) = x :=
    fun x h1 h2 => sm4_block_roundtrip rks x h1 h2
  have hcbs : ∀ c ∈ cbcEncrypt (sm4EncryptBlock rks) iv (toBlocks (pkcs7Pad p)),
      c.length = 16 ∧ isBytes c :=
    cbcEncrypt_mem _ hprop _ iv hblocks hiv hivb
  have hctmod :
      (cbcEncrypt (sm4EncryptBlock rks) iv (toBlocks (pkcs7Pad p))).flatten.length % 16 = 0 := by
    rw [flatten_length_16 _ (fun c hc => (hcbs c hc).1)]
    omega
  refine ⟨(cbcEncrypt (sm4EncryptBlock rks) iv (toBlocks (pkcs7Pad p))).flatten, ?_, ?_⟩
  · unfold sm4EncryptCbc
    rw [if_neg hivgood]
  · unfold sm4DecryptCbc
    rw [if_neg hivgood, if_neg (by omega)]
    unfold sm4CbcStream
    rw [toBlocks_flatten_blocks _ (fun c hc => (hcbs c hc).1)]
    rw [cbcDecrypt_cbcEncrypt _ _ hprop hinv _ iv hblocks hiv hivb]
    rw [toBlocks_flatten _ hpadmod]
    exact pkcs7Unpad_pad p

/-- Witness for C1 at a concrete key, plaintext, and IV. -/
theorem c1_sm4_cbc_roundtrip_witness :
    ∃ ct, sm4EncryptCbc (sm4KeyExpansion (List.replicate 16 7)) [1, 2, 3]
        (List.replicate 16 9) = .ok ct ∧
      sm4DecryptCbc (sm4KeyExpansion (List.replicate 16 7)) ct
        (List.replicate 16 9) = .ok [1, 2, 3] :=
  c1_sm4_cbc_roundtrip (List.replicate 16 7) [1, 2, 3] (List.replicate 16 9)
    (by decide) (by decide) (by decide) (by decide) (by decide)

/-! ## Claim C4: the GB/T 32907-2016 SM4 test vector -/

set_option maxRecDepth 100000 in
set_option maxHeartbeats 2000000 in
/-- C4: with key `0123456789ABCDEFFEDCBA9876543210` and the same plaintext
block, `SM4._encrypt_block` returns `681EDF34D206965E86B3E94F536E4246`, the
published GB/T 32907-2016 test vector. -/
theorem c4_sm4_test_vector :
    sm4EncryptBlock
      (sm4KeyExpansion
        [0x01, 0x23, 0x45, 0x67, 0x89, 0xab, 0xcd, 0xef,
         0xfe, 0xdc, 0xba, 0x98, 0x76, 0x54, 0x32, 0x10])
      [0x01, 0x23, 0x45, 0x67, 0x89, 0xab, 0xcd, 0xef,
       0xfe, 0xdc, 0xba, 0x98, 0x76, 0x54, 0x32, 0x10] =
      [0x68, 0x1e, 0xdf, 0x34, 0xd2, 0x06, 0x96, 0x5e,
       0x86, 0xb3, 0xe9, 0x4f, 0x53, 0x6e, 0x42, 0x46] := by
  decide

/-! ## Claim C2: the Kuznyechik inverse linear transform is not an inverse -/

theorem gostFeistelSteps_nil (p : Bytes × Bytes) : gostFeistelSteps [] p = p := rfl

theorem gostFeistelSteps_cons (idx : Nat) (rest : List Nat) (k1 k2 : Bytes) :
    gostFeistelSteps (idx :: rest) (k1, k2) =
      gostFeistelSteps rest (zipXor (gostL (gostS (zipXor k1 (gostC idx)))) k2, k1) := rfl

theorem gostEncRounds_nil (r : Bytes) : gostEncRounds [] r = r := rfl

theorem gostEncRounds_cons (k : Bytes) (ks : List Bytes) (r : Bytes) :
    gostEncRounds (k :: ks) r = gostEncRounds ks (gostL (gostS (zipXor r k))) := rfl

theorem gostDecRounds_nil (r : Bytes) : gostDecRounds [] r = r := rfl

theorem gostDecRounds_cons (k : Bytes) (ks : List Bytes) (r : Bytes) :
    gostDecRounds (k :: ks) r = gostDecRounds ks (zipXor (gostSInv (gostLInv r)) k) := rfl

set_option maxRecDepth 10000 in
/-- C2 (refutation): the claim clause that the inverse linear transform undoes
the forward one is false: `_l_inv_transform` applied to `_l_transform` of the
block `01 00 ... 00` yields a different block (the inverse step XORs the
`gf_mul` corrections into bytes 0-14 of the shifted state instead of
accumulating the linear functional into the trailing byte).  Consequently
`decrypt_block` does not invert `encrypt_block` and the CBC round-trip of the
claim fails. -/
theorem c2_gost_decrypt_not_inverse :
    gostLInv (gostL [1, 0, 0, 0, 0, 0, 0, 0, 0, 0, 0, 0, 0, 0, 0, 0]) ≠
      [1, 0, 0, 0, 0, 0, 0, 0, 0, 0, 0, 0, 0, 0, 0, 0] := by
  decide

/-! ## Claim C10: decrypt_cbc on the empty ciphertext -/

/-- C10: for every key schedule and 16-byte IV, `decrypt_cbc` of either
cipher on the empty ciphertext passes the length checks but fails with the
out-of-range index error (`plaintext[-1]` on an empty byte string), not with
the padding error. -/
theorem c10_decrypt_empty (rksS : List Nat) (rksG : List Bytes) (iv : Bytes)
    (hiv : iv.length = 16) :
    sm4DecryptCbc rksS [] iv = .error .indexError ∧
    gostDecryptCbc rksG [] iv = .error .indexError := by
  constructor
  · unfold sm4DecryptCbc
    rw [if_neg (by omega), if_neg (by simp)]
    rfl
  · unfold gostDecryptCbc
    rw [if_neg (by omega), if_neg (by simp)]
    rfl

/-- Witness for C10 at concrete key schedules and IV. -/
theorem c10_decrypt_empty_witness :
    sm4DecryptCbc [] [] (List.replicate 16 0) = .error .indexError ∧
    gostDecryptCbc [] [] (List.replicate 16 0) = .error .indexError :=
  c10_decrypt_empty [] [] (List.replicate 16 0) (by decide)

/-! ## Claim C7: the length checks -/

/-- C7: constructing `SM4` with a key that is not exactly 16 bytes (resp.
`GOSTKuznyechik`, 32 bytes) fails with the invalid-key-length error;
`encrypt_cbc`/`decrypt_cbc` of either cipher fail with the invalid-IV-length
error whenever the IV is not exactly 16 bytes; and (with a valid IV)
`decrypt_cbc` fails with the invalid-ciphertext-length error whenever the
ciphertext length is not a multiple of 16. -/
theorem c7_length_checks :
    (∀ key : Bytes, key.length ≠ 16 → sm4New key = .error .invalidKeyLength) ∧
    (∀ key : Bytes, key.length ≠ 32 → gostNew key = .error .invalidKeyLength) ∧
    (∀ (rks : List Nat) (p iv : Bytes), iv.length ≠ 16 →
        sm4EncryptCbc rks p iv = .error .invalidIVLength) ∧
    (∀ (rks : List Nat) (ct iv : Bytes), iv.length ≠ 16 →
        sm4DecryptCbc rks ct iv = .error .invalidIVLength) ∧
    (∀ (rks : List Bytes) (p iv : Bytes), iv.length ≠ 16 →
        gostEncryptCbc rks p iv = .error .invalidIVLength) ∧
    (∀ (rks : List Bytes) (ct iv : Bytes), iv.length ≠ 16 →
        gostDecryptCbc rks ct iv = .error .invalidIVLength) ∧
    (∀ (rks : List Nat) (ct iv : Bytes), iv.length = 16 → ct.length % 16 ≠ 0 →
        sm4DecryptCbc rks ct iv = .error .invalidCiphertextLength) ∧
    (∀ (rks : List Bytes) (ct iv : Bytes), iv.length = 16 → ct.length % 16 ≠ 0 →
        gostDecryptCbc rks ct iv = .error .invalidCiphertextLength) := by
  refine ⟨fun key h => ?_, fun key h => ?_, fun rks p iv h => ?_, fun rks ct iv h => ?_,
    fun rks p iv h => ?_, fun rks ct iv h => ?_,
    fun rks ct iv h1 h2 => ?_, fun rks ct iv h1 h2 => ?_⟩
  · unfold sm4New; rw [if_pos h]
  · unfold gostNew; rw [if_pos h]
  · unfold sm4EncryptCbc; rw [if_pos h]
  · unfold sm4DecryptCbc; rw [if_pos h]
  · unfold gostEncryptCbc; rw [if_pos h]
  · unfold gostDecryptCbc; rw [if_pos h]
  · unfold sm4DecryptCbc; rw [if_neg (by omega), if_pos h2]
  · unfold gostDecryptCbc; rw [if_neg (by omega), if_pos h2]

/-- Witness for C7: a 15-byte key, a 31-byte key, a 17-byte IV, and an
8-byte ciphertext. -/
theorem c7_length_checks_witness :
    sm4New (List.replicate 15 0) = .error .invalidKeyLength ∧
    gostNew (List.replicate 31 0) = .error .invalidKeyLength ∧
    sm4EncryptCbc [] [] (List.replicate 17 0) = .error .invalidIVLength ∧
    sm4DecryptCbc [] [] (List.replicate 17 0) = .error .invalidIVLength ∧
    gostEncryptCbc [] [] (List.replicate 17 0) = .error .invalidIVLength ∧
    gostDecryptCbc [] [] (List.replicate 17 0) = .error .invalidIVLength ∧
    sm4DecryptCbc [] (List.replicate 8 0) (List.replicate 16 0) =
      .error .invalidCiphertextLength ∧
    gostDecryptCbc [] (List.replicate 8 0) (List.replicate 16 0) =
      .error .invalidCiphertextLength :=
  ⟨c7_length_checks.1 _ (by decide),
   c7_length_checks.2.1 _ (by decide),
   c7_length_checks.2.2.1 [] [] _ (by decide),
   c7_length_checks.2.2.2.1 [] [] _ (by decide),
   c7_length_checks.2.2.2.2.1 [] [] _ (by decide),
   c7_length_checks.2.2.2.2.2.1 [] [] _ (by decide),
   c7_length_checks.2.2.2.2.2.2.1 [] _ _ (by decide) (by decide),
   c7_length_checks.2.2.2.2.2.2.2 [] _ _ (by decide) (by decide)⟩

/-! ## Claim C5: the GOST R 34.11-2012 Streebog test vector -/

set_option maxRecDepth 100000 in
set_option maxHeartbeats 2000000 in
/-- C5 (refuting evaluation): on the standard's M1 test message — the 63
ASCII digits `"01234567890123456789012345678901234567890123456789012345678
9012"` — `GOSTStreebog.digest` does not return the published digest at
either digest size: it fails with a `ValueError`, because
`bytes([len(buffer) * 8])` is evaluated with `len(buffer) * 8 = 504 > 255`.
(The compression function also omits the standard's permutation and linear
transforms; see `streebogG`.) -/
theorem c5_streebog_m1_fails :
    streebogDigest (streebogUpdate (streebogInit 32) [0x30, 0x31, 0x32, 0x33, 0x34, 0x35, 0x36, 0x37, 0x38, 0x39, 0x30, 0x31, 0x32, 0x33, 0x34, 0x35, 0x36, 0x37, 0x38, 0x39, 0x30, 0x31, 0x32, 0x33, 0x34, 0x35, 0x36, 0x37, 0x38, 0x39, 0x30, 0x31, 0x32, 0x33, 0x34, 0x35, 0x36, 0x37, 0x38, 0x39, 0x30, 0x31, 0x32, 0x33, 0x34, 0x35, 0x36, 0x37, 0x38, 0x39, 0x30, 0x31, 0x32, 0x33, 0x34, 0x35, 0x36, 0x37, 0x38, 0x39, 0x30, 0x31, 0x32]) = .error .valueError ∧
    streebogDigest (streebogUpdate (streebogInit 64) [0x30, 0x31, 0x32, 0x33, 0x34, 0x35, 0x36, 0x37, 0x38, 0x39, 0x30, 0x31, 0x32, 0x33, 0x34, 0x35, 0x36, 0x37, 0x38, 0x39, 0x30, 0x31, 0x32, 0x33, 0x34, 0x35, 0x36, 0x37, 0x38, 0x39, 0x30, 0x31, 0x32, 0x33, 0x34, 0x35, 0x36, 0x37, 0x38, 0x39, 0x30, 0x31, 0x32, 0x33, 0x34, 0x35, 0x36, 0x37, 0x38, 0x39, 0x30, 0x31, 0x32, 0x33, 0x34, 0x35, 0x36, 0x37, 0x38, 0x39, 0x30, 0x31, 0x32]) = .error .valueError := by
  decide

/-! ## Claim C3: PKCS7 padding validation on decrypt -/

/-- With every ciphertext block 16 bytes long, the GOST CBC decryption loop
never fails (the block-length guard of `decrypt_block` passes). -/
theorem gostCbcDecryptM_ok (rks : List Bytes) :
    ∀ (blocks : List Bytes) (prev : Bytes), (∀ b ∈ blocks, b.length = 16) →
      ∃ ds, cbcDecryptM (gostDecryptBlock rks) prev blocks = .ok ds
  | [], prev, _ => ⟨[], rfl⟩
  | c :: cs, prev, h => by
      obtain ⟨ds, hds⟩ := gostCbcDecryptM_ok rks cs c (fun b hb => h b (by simp [hb]))
      refine ⟨zipXor (gostDecRounds (rks.take 9).reverse
        (zipXor c (rks.getD 9 []))) prev :: ds, ?_⟩
      have hblock : gostDecryptBlock rks c =
          .ok (gostDecRounds (rks.take 9).reverse (zipXor c (rks.getD 9 []))) := by
        unfold gostDecryptBlock
        rw [if_neg (by rw [h c (by simp)]; simp)]
      simp only [cbcDecryptM]
      rw [hblock]
      show (cbcDecryptM (gostDecryptBlock rks) c cs).map _ = _
      rw [hds]
      rfl

/-- Once the last byte of the stream is known, `pkcs7Unpad` is the padding
check on it. -/
theorem pkcs7Unpad_eq (s : Bytes) (padLen : Nat) (h : s.getLast? = some padLen) :
    pkcs7Unpad s =
      if padLen > 16 ∨ ¬ (pySliceLast padLen s).all (· == padLen) then
        .error .invalidPadding
      else .ok (pySliceDropLast padLen s) := by
  unfold pkcs7Unpad
  rw [h]

/-- C3 (amended): on a ciphertext of valid length with a 16-byte IV,
`decrypt_cbc` of either cipher applies the PKCS7 check to the decrypted byte
stream, and the check on a non-empty stream with last byte `pad_len`
behaves as follows: it accepts when `1 ≤ pad_len ≤ 16` and the final
`pad_len` bytes all equal `pad_len` (returning the stream without them); it
ALSO accepts when `pad_len = 0` and every byte of the stream is zero
(returning the empty plaintext, because Python's `s[-0:]` is the whole
string); in every other case it fails with the padding error. -/
theorem c3_padding_validation :
    (∀ (rks : List Nat) (ct iv : Bytes), iv.length = 16 → ct.length % 16 = 0 →
        sm4DecryptCbc rks ct iv = pkcs7Unpad (sm4CbcStream rks ct iv)) ∧
    (∀ (rks : List Bytes) (ct iv : Bytes), iv.length = 16 → ct.length % 16 = 0 →
        ∃ s, gostCbcStream rks ct iv = .ok s ∧
          gostDecryptCbc rks ct iv = pkcs7Unpad s) ∧
    (∀ (s : Bytes) (padLen : Nat), s.getLast? = some padLen →
        (1 ≤ padLen → padLen ≤ 16 →
          (s.drop (s.length - padLen)).all (· == padLen) = true →
          pkcs7Unpad s = .ok (s.take (s.length - padLen))) ∧
        (padLen = 0 → s.all (· == 0) = true → pkcs7Unpad s = .ok []) ∧
        (padLen ≤ 16 → ¬ (pySliceLast padLen s).all (· == padLen) = true →
          pkcs7Unpad s = .error .invalidPadding) ∧
        (16 < padLen → pkcs7Unpad s = .error .invalidPadding)) := by
  refine ⟨fun rks ct iv hiv hct => ?_, fun rks ct iv hiv hct => ?_,
    fun s padLen hlast => ⟨fun h1 h16 hall => ?_, fun h0 hall => ?_,
      fun h16 hnall => ?_, fun hgt => ?_⟩⟩
  · unfold sm4DecryptCbc
    rw [if_neg (by omega), if_neg (by omega)]
  · obtain ⟨ds, hds⟩ :=
      gostCbcDecryptM_ok rks (toBlocks ct) iv (toBlocks_length_mem ct hct)
    refine ⟨ds.flatten, ?_, ?_⟩
    · unfold gostCbcStream
      rw [hds]
      rfl
    · unfold gostDecryptCbc
      rw [if_neg (by omega), if_neg (by omega)]
      unfold gostCbcStream
      rw [hds]
      rfl
  · rw [pkcs7Unpad_eq s padLen hlast, if_neg ?_]
    · unfold pySliceDropLast
      rw [if_neg (by omega)]
    · push_neg
      refine ⟨by omega, ?_⟩
      unfold pySliceLast
      rw [if_neg (by omega)]
      exact hall
  · subst h0
    rw [pkcs7Unpad_eq s 0 hlast, if_neg ?_]
    · unfold pySliceDropLast
      simp
    · push_neg
      refine ⟨by omega, ?_⟩
      unfold pySliceLast
      simpa using hall
  · rw [pkcs7Unpad_eq s padLen hlast, if_pos (Or.inr hnall)]
  · rw [pkcs7Unpad_eq s padLen hlast, if_pos (Or.inl (by omega))]

/-- Witness for C3 (amended) at concrete streams and ciphertexts. -/
theorem c3_padding_validation_witness :
    sm4DecryptCbc [] [] (List.replicate 16 0) =
      pkcs7Unpad (sm4CbcStream [] [] (List.replicate 16 0)) ∧
    (∃ s, gostCbcStream [] [] (List.replicate 16 0) = .ok s ∧
      gostDecryptCbc [] [] (List.replicate 16 0) = pkcs7Unpad s) ∧
    pkcs7Unpad (List.replicate 16 4) = .ok (List.replicate 12 4) ∧
    pkcs7Unpad (List.replicate 16 0) = .ok [] ∧
    pkcs7Unpad (3 :: List.replicate 15 0) = .error .invalidPadding ∧
    pkcs7Unpad (List.replicate 16 17) = .error .invalidPadding :=
  ⟨c3_padding_validation.1 [] [] _ (by decide) (by decide),
   c3_padding_validation.2.1 [] [] _ (by decide) (by decide),
   (c3_padding_validation.2.2 (List.replicate 16 4) 4 (by decide)).1
     (by decide) (by decide) (by decide),
   (c3_padding_validation.2.2 (List.replicate 16 0) 0 (by decide)).2.1
     rfl (by decide),
   (c3_padding_validation.2.2 (3 :: List.replicate 15 0) 0 (by decide)).2.2.1
     (by decide) (by decide),
   (c3_padding_validation.2.2 (List.replicate 16 17) 17 (by decide)).2.2.2
     (by decide)⟩

set_option maxRecDepth 100000 in
set_option maxHeartbeats 4000000 in
/-- C3 (counterexample): a ciphertext whose decrypted stream is all zero
bytes — the single block `encrypt_block(iv)` — has `pad_len = 0`, which the
claim says must fail with the padding error; instead `decrypt_cbc` returns
the empty plaintext. -/
theorem c3_padding_counterexample :
    (sm4CbcStream (sm4KeyExpansion (List.replicate 16 7))
        (sm4EncryptBlock (sm4KeyExpansion (List.replicate 16 7)) (List.replicate 16 9))
        (List.replicate 16 9)).getLast? = some 0 ∧
    sm4DecryptCbc (sm4KeyExpansion (List.replicate 16 7))
        (sm4EncryptBlock (sm4KeyExpansion (List.replicate 16 7)) (List.replicate 16 9))
        (List.replicate 16 9) = .ok [] := by
  decide

/-! ## Claim C8: ciphertext length -/

theorem cbcEncrypt_count (encB : Bytes → Bytes) :
    ∀ (bs : List Bytes) (prev : Bytes), (cbcEncrypt encB prev bs).length = bs.length
  | [], _ => rfl
  | b :: bs, prev => by
      simp only [cbcEncrypt, List.length_cons]
      rw [cbcEncrypt_count encB bs]

theorem cbcEncrypt_len (encB : Bytes → Bytes)
    (h : ∀ x : Bytes, x.length = 16 → (encB x).length = 16) :
    ∀ (bs : List Bytes) (prev : Bytes),
      (∀ b ∈ bs, b.length = 16) → prev.length = 16 →
      ∀ c ∈ cbcEncrypt encB prev bs, c.length = 16
  | [], _, _, _ => by intro c hc; simp [cbcEncrypt] at hc
  | b :: bs, prev, hbs, hp => by
      intro c hc
      have hx : (zipXor b prev).length = 16 := by
        simp [zipXor_length, hbs b (by simp), hp]
      simp only [cbcEncrypt, List.mem_cons] at hc
      rcases hc with rfl | hc
      · exact h _ hx
      · exact cbcEncrypt_len encB h bs _ (fun x hx2 => hbs x (by simp [hx2])) (h _ hx) c hc

theorem gostS_length (b : Bytes) : (gostS b).length = b.length := by simp [gostS]

theorem gostLRound_length (r : Bytes) (h : r.length = 16) : (gostLRound r).length = 16 := by
  simp [gostLRound, List.length_dropLast, h]

theorem gostL_iter_length : ∀ (n : Nat) (r : Bytes), r.length = 16 →
    (gostLRound^[n] r).length = 16
  | 0, r, h => h
  | n + 1, r, h => by
      rw [Function.iterate_succ_apply]
      exact gostL_iter_length n _ (gostLRound_length r h)

theorem gostL_length (b : Bytes) (h : b.length = 16) : (gostL b).length = 16 :=
  gostL_iter_length 16 b h

theorem gostC_length (idx : Nat) : (gostC idx).length = 16 :=
  gostL_length _ (by simp)

theorem gostFeistelSteps_length :
    ∀ (idxs : List Nat) (k1 k2 : Bytes), k1.length = 16 → k2.length = 16 →
      (gostFeistelSteps idxs (k1, k2)).1.length = 16 ∧
      (gostFeistelSteps idxs (k1, k2)).2.length = 16
  | [], _, _, h1, h2 => ⟨h1, h2⟩
  | idx :: rest, k1, k2, h1, h2 => by
      simp only [gostFeistelSteps]
      apply gostFeistelSteps_length rest
      · have hx : (zipXor k1 (gostC idx)).length = 16 := by
          simp [zipXor_length, h1, gostC_length]
        have hl : (gostL (gostS (zipXor k1 (gostC idx)))).length = 16 :=
          gostL_length _ (by rw [gostS_length, hx])
        simp [zipXor_length, hl, h2]
      · exact h1

/-- The Kuznyechik key schedule of a 32-byte key consists of exactly 10
round keys of 16 bytes each. -/
theorem gostKeyExpansion_wf (key : Bytes) (h : key.length = 32) :
    (gostKeyExpansion key).length = 10 ∧ ∀ k ∈ gostKeyExpansion key, k.length = 16 := by
  have h1 : (key.take 16).length = 16 := by simp [h]
  have h2 : (key.drop 16).length = 16 := by simp [h]
  obtain ⟨⟨a1, a2⟩, e1⟩ : ∃ t, gostFeistelSteps ((List.range 8).map (8 * 0 + ·))
      (key.take 16, key.drop 16) = t := ⟨_, rfl⟩
  obtain ⟨⟨a3, a4⟩, e2⟩ : ∃ t, gostFeistelSteps ((List.range 8).map (8 * 1 + ·))
      (a1, a2) = t := ⟨_, rfl⟩
  obtain ⟨⟨a5, a6⟩, e3⟩ : ∃ t, gostFeistelSteps ((List.range 8).map (8 * 2 + ·))
      (a3, a4) = t := ⟨_, rfl⟩
  obtain ⟨⟨a7, a8⟩, e4⟩ : ∃ t, gostFeistelSteps ((List.range 8).map (8 * 3 + ·))
      (a5, a6) = t := ⟨_, rfl⟩
  have l1 : a1.length = 16 ∧ a2.length = 16 := by
    have := gostFeistelSteps_length ((List.range 8).map (8 * 0 + ·)) _ _ h1 h2
    rwa [e1] at this
  have l2 : a3.length = 16 ∧ a4.length = 16 := by
    have := gostFeistelSteps_length ((List.range 8).map (8 * 1 + ·)) _ _ l1.1 l1.2
    rwa [e2] at this
  have l3 : a5.length = 16 ∧ a6.length = 16 := by
    have := gostFeistelSteps_length ((List.range 8).map (8 * 2 + ·)) _ _ l2.1 l2.2
    rwa [e3] at this
  have l4 : a7.length = 16 ∧ a8.length = 16 := by
    have := gostFeistelSteps_length ((List.range 8).map (8 * 3 + ·)) _ _ l3.1 l3.2
    rwa [e4] at this
  have hx : gostKeyExpansion key =
      [key.take 16, key.drop 16, a1, a2, a3, a4, a5, a6, a7, a8] := by
    simp only [gostKeyExpansion]
    rw [e1, e2, e3, e4]
  rw [hx]
  refine ⟨rfl, ?_⟩
  intro k hk
  simp only [List.mem_cons, List.not_mem_nil, or_false] at hk
  rcases hk with rfl | rfl | rfl | rfl | rfl | rfl | rfl | rfl | rfl | rfl
  · exact h1
  · exact h2
  · exact l1.1
  · exact l1.2
  · exact l2.1
  · exact l2.2
  · exact l3.1
  · exact l3.2
  · exact l4.1
  · exact l4.2

theorem gostEncRounds_length :
    ∀ (ks : List Bytes) (r : Bytes), (∀ k ∈ ks, k.length = 16) → r.length = 16 →
      (gostEncRounds ks r).length = 16
  | [], _, _, hr => hr
  | k :: ks, r, hk, hr => by
      simp only [gostEncRounds]
      apply gostEncRounds_length ks _ (fun x hx => hk x (by simp [hx]))
      apply gostL_length
      rw [gostS_length]
      simp [zipXor_length, hr, hk k (by simp)]

/-- With a well-formed schedule, `encrypt_block` succeeds on every 16-byte
block and produces a 16-byte block. -/
theorem gostEncryptBlock_ok (rks : List Bytes)
    (hlen : ∀ k ∈ rks, k.length = 16) (hn : rks.length = 10)
    (b : Bytes) (hb : b.length = 16) :
    ∃ c, gostEncryptBlock rks b = .ok c ∧ c.length = 16 := by
  have h9 : (rks.getD 9 []).length = 16 := by
    rw [List.getD_eq_getElem _ _ (by omega)]
    exact hlen _ (List.getElem_mem _)
  have hrounds : (gostEncRounds (rks.take 9) b).length = 16 :=
    gostEncRounds_length _ b (fun k hk => hlen k (List.mem_of_mem_take hk)) hb
  refine ⟨zipXor (gostEncRounds (rks.take 9) b) (rks.getD 9 []), ?_, ?_⟩
  · unfold gostEncryptBlock
    rw [if_neg (by omega)]
  · rw [zipXor_length, hrounds, h9]
    simp

/-- The GOST CBC encryption loop succeeds on 16-byte blocks and yields as
many 16-byte ciphertext blocks. -/
theorem gostCbcEncryptM_ok (rks : List Bytes)
    (hlen : ∀ k ∈ rks, k.length = 16) (hn : rks.length = 10) :
    ∀ (bs : List Bytes) (prev : Bytes), (∀ b ∈ bs, b.length = 16) → prev.length = 16 →
      ∃ cs, cbcEncryptM (gostEncryptBlock rks) prev bs = .ok cs ∧
        cs.length = bs.length ∧ ∀ c ∈ cs, c.length = 16
  | [], _, _, _ => ⟨[], rfl, rfl, by intro c hc; simp at hc⟩
  | b :: bs, prev, hbs, hp => by
      have hx : (zipXor b prev).length = 16 := by
        simp [zipXor_length, hbs b (by simp), hp]
      obtain ⟨c, hc, hclen⟩ := gostEncryptBlock_ok rks hlen hn _ hx
      obtain ⟨cs, hcs, hcount, hcl⟩ :=
        gostCbcEncryptM_ok rks hlen hn bs c (fun x hx2 => hbs x (by simp [hx2])) hclen
      refine ⟨c :: cs, ?_, by simp [hcount], ?_⟩
      · simp only [cbcEncryptM]
        rw [hc]
        show (cbcEncryptM (gostEncryptBlock rks) c bs).map _ = _
        rw [hcs]
        rfl
      · intro x hx2
        rcases List.mem_cons.mp hx2 with rfl | hx2
        · exact hclen
        · exact hcl x hx2

/-- C8: for every plaintext of length `n`, valid key, and 16-byte IV, the
CBC ciphertext of either cipher has length `n + (16 - n % 16)`: a non-zero
multiple of 16 strictly greater than `n`. -/
theorem c8_ciphertext_length :
    (∀ (key p iv : Bytes), key.length = 16 → iv.length = 16 →
      ∃ ct, sm4EncryptCbc (sm4KeyExpansion key) p iv = .ok ct ∧
        ct.length = p.length + (16 - p.length % 16) ∧ ct.length % 16 = 0 ∧
        0 < ct.length ∧ p.length < ct.length) ∧
    (∀ (key p iv : Bytes), key.length = 32 → iv.length = 16 →
      ∃ ct, gostEncryptCbc (gostKeyExpansion key) p iv = .ok ct ∧
        ct.length = p.length + (16 - p.length % 16) ∧ ct.length % 16 = 0 ∧
        0 < ct.length ∧ p.length < ct.length) := by
  constructor
  · intro key p iv hkey hiv
    have hpadmod := pkcs7Pad_mod p
    have hblocks := toBlocks_length_mem (pkcs7Pad p) hpadmod
    have hcbs : ∀ c ∈ cbcEncrypt (sm4EncryptBlock (sm4KeyExpansion key)) iv
        (toBlocks (pkcs7Pad p)), c.length = 16 :=
      cbcEncrypt_len _ (fun x hx => (sm4CryptBlock_length _ x hx).1) _ iv hblocks hiv
    have hlen : (cbcEncrypt (sm4EncryptBlock (sm4KeyExpansion key)) iv
        (toBlocks (pkcs7Pad p))).flatten.length = (pkcs7Pad p).length := by
      rw [flatten_length_16 _ hcbs, cbcEncrypt_count]
      have := flatten_length_16 _ hblocks
      rw [toBlocks_flatten _ hpadmod] at this
      omega
    refine ⟨(cbcEncrypt (sm4EncryptBlock (sm4KeyExpansion key)) iv
        (toBlocks (pkcs7Pad p))).flatten, ?_, ?_⟩
    · unfold sm4EncryptCbc
      rw [if_neg (by omega)]
    · rw [hlen, pkcs7Pad_length]
      omega
  · intro key p iv hkey hiv
    obtain ⟨hn, hlen16⟩ := gostKeyExpansion_wf key hkey
    have hpadmod := pkcs7Pad_mod p
    have hblocks := toBlocks_length_mem (pkcs7Pad p) hpadmod
    obtain ⟨cs, hcs, hcount, hcl⟩ :=
      gostCbcEncryptM_ok (gostKeyExpansion key) hlen16 hn (toBlocks (pkcs7Pad p)) iv
        hblocks hiv
    have hlen : cs.flatten.length = (pkcs7Pad p).length := by
      rw [flatten_length_16 _ hcl, hcount]
      have := flatten_length_16 _ hblocks
      rw [toBlocks_flatten _ hpadmod] at this
      omega
    refine ⟨cs.flatten, ?_, ?_⟩
    · unfold gostEncryptCbc
      rw [if_neg (by omega), hcs]
      rfl
    · rw [hlen, pkcs7Pad_length]
      omega

/-- Witness for C8 at a concrete key, plaintext, and IV (plaintext length 5,
ciphertext length 16). -/
theorem c8_ciphertext_length_witness :
    (∃ ct, sm4EncryptCbc (sm4KeyExpansion (List.replicate 16 1)) [9, 9, 9, 9, 9]
        (List.replicate 16 2) = .ok ct ∧
      ct.length = 5 + (16 - 5 % 16) ∧ ct.length % 16 = 0 ∧
      0 < ct.length ∧ 5 < ct.length) ∧
    (∃ ct, gostEncryptCbc (gostKeyExpansion (List.replicate 32 1)) [9, 9, 9, 9, 9]
        (List.replicate 16 2) = .ok ct ∧
      ct.length = 5 + (16 - 5 % 16) ∧ ct.length % 16 = 0 ∧
      0 < ct.length ∧ 5 < ct.length) :=
  ⟨c8_ciphertext_length.1 (List.replicate 16 1) [9, 9, 9, 9, 9] (List.replicate 16 2)
      (by decide) (by decide),
   c8_ciphertext_length.2 (List.replicate 32 1) [9, 9, 9, 9, 9] (List.replicate 16 2)
      (by decide) (by decide)⟩

/-! ## Claim C6: streaming equivalence of the hashes -/

theorem drainGo_congr {α : Type} (comp : α → Bytes → α) :
    ∀ (f1 f2 : Nat) (a : α) (buf : Bytes), buf.length ≤ f1 → buf.length ≤ f2 →
      drainGo comp f1 a buf = drainGo comp f2 a buf
  | 0, f2, a, buf, h1, h2 => by
      have hb : buf = [] := List.length_eq_zero.mp (by omega)
      subst hb
      cases f2 <;> simp [drainGo]
  | f1 + 1, 0, a, buf, h1, h2 => by
      have hb : buf = [] := List.length_eq_zero.mp (by omega)
      subst hb
      simp [drainGo]
  | f1 + 1, f2 + 1, a, buf, h1, h2 => by
      simp only [drainGo]
      by_cases hb : buf.length ≥ 64
      · rw [if_pos hb, if_pos hb]
        exact drainGo_congr comp f1 f2 _ _ (by simp [List.length_drop]; omega)
          (by simp [List.length_drop]; omega)
      · rw [if_neg hb, if_neg hb]

theorem drain_small {α : Type} (comp : α → Bytes → α) (a : α) (buf : Bytes)
    (hb : buf.length < 64) : drain comp a buf = (a, buf) := by
  unfold drain
  rcases hn : buf.length with _ | n
  · rfl
  · simp only [drainGo]
    rw [if_neg (by omega)]

theorem drain_step {α : Type} (comp : α → Bytes → α) (a : α) (buf : Bytes)
    (hb : 64 ≤ buf.length) :
    drain comp a buf = drain comp (comp a (buf.take 64)) (buf.drop 64) := by
  unfold drain
  obtain ⟨m, hm⟩ : ∃ m, buf.length = m + 1 := ⟨buf.length - 1, by omega⟩
  rw [hm]
  simp only [drainGo]
  rw [if_pos hb]
  exact drainGo_congr comp m (buf.drop 64).length _ _
    (by simp [List.length_drop]; omega) (by simp)

/-- After draining, fewer than 64 bytes remain buffered. -/
theorem drain_buffer_lt {α : Type} (comp : α → Bytes → α) (a : α) (buf : Bytes) :
    (drain comp a buf).2.length < 64 := by
  by_cases hb : 64 ≤ buf.length
  · rw [drain_step comp a buf hb]
    exact drain_buffer_lt comp _ (buf.drop 64)
  · rw [drain_small comp a buf (by omega)]
    dsimp only
    omega
termination_by buf.length
decreasing_by simp [List.length_drop]; omega

/-- Draining, then appending more data and draining again, is draining the
concatenation: the key fact behind streaming equivalence. -/
theorem drain_append {α : Type} (comp : α → Bytes → α) (a : α) (buf extra : Bytes) :
    drain comp (drain comp a buf).1 ((drain comp a buf).2 ++ extra) =
      drain comp a (buf ++ extra) := by
  by_cases hb : 64 ≤ buf.length
  · have h2 : 64 ≤ (buf ++ extra).length := by simp; omega
    have ht : (buf ++ extra).take 64 = buf.take 64 := by
      rw [List.take_append_eq_append_take]
      simp [Nat.sub_eq_zero_of_le hb]
    have hd : (buf ++ extra).drop 64 = buf.drop 64 ++ extra := by
      rw [List.drop_append_eq_append_drop]
      simp [Nat.sub_eq_zero_of_le hb]
    rw [drain_step comp a buf hb, drain_step comp a (buf ++ extra) h2, ht, hd]
    exact drain_append comp (comp a (buf.take 64)) (buf.drop 64) extra
  · rw [drain_small comp a buf (by omega)]
termination_by buf.length
decreasing_by simp [List.length_drop]; omega

theorem sm3Update_eq (s : SM3State) (d : Bytes) :
    sm3Update s d = ⟨(drain sm3Compress s.h (s.buffer ++ d)).1,
      (drain sm3Compress s.h (s.buffer ++ d)).2, s.length + d.length⟩ := rfl

theorem sm3Update_buffer_lt (s : SM3State) (d : Bytes) :
    (sm3Update s d).buffer.length < 64 := by
  rw [sm3Update_eq]
  exact drain_buffer_lt sm3Compress s.h (s.buffer ++ d)

theorem sm3Update_append (s : SM3State) (a b : Bytes) :
    sm3Update (sm3Update s a) b = sm3Update s (a ++ b) := by
  rw [sm3Update_eq s a, sm3Update_eq, sm3Update_eq s (a ++ b)]
  dsimp only
  rw [drain_append sm3Compress s.h (s.buffer ++ a) b, List.append_assoc]
  simp [List.length_append, Nat.add_assoc]

theorem sm3_foldl :
    ∀ (cs : List Bytes) (s : SM3State), s.buffer.length < 64 →
      cs.foldl sm3Update s = sm3Update s cs.flatten
  | [], s, hs => by
      simp only [List.foldl_nil, List.flatten_nil]
      rw [sm3Update_eq, List.append_nil]
      rw [drain_small _ _ _ hs]
      cases s
      simp
  | c :: cs, s, hs => by
      simp only [List.foldl_cons, List.flatten_cons]
      rw [sm3_foldl cs (sm3Update s c) (sm3Update_buffer_lt s c), sm3Update_append]

theorem streebogUpdate_eq (st : StreebogState) (d : Bytes) :
    streebogUpdate st d = ⟨st.digestSize,
      (drain streebogStep (st.h, st.n, st.sigma) (st.buffer ++ d)).1.1,
      (drain streebogStep (st.h, st.n, st.sigma) (st.buffer ++ d)).1.2.1,
      (drain streebogStep (st.h, st.n, st.sigma) (st.buffer ++ d)).1.2.2,
      (drain streebogStep (st.h, st.n, st.sigma) (st.buffer ++ d)).2⟩ := rfl

theorem streebogUpdate_buffer_lt (st : StreebogState) (d : Bytes) :
    (streebogUpdate st d).buffer.length < 64 := by
  rw [streebogUpdate_eq]
  exact drain_buffer_lt streebogStep _ (st.buffer ++ d)

theorem streebogUpdate_append (st : StreebogState) (a b : Bytes) :
    streebogUpdate (streebogUpdate st a) b = streebogUpdate st (a ++ b) := by
  rw [streebogUpdate_eq st a, streebogUpdate_eq, streebogUpdate_eq st (a ++ b)]
  dsimp only
  have ee : ∀ p : (Bytes × Bytes × Bytes) × Bytes, (p.1.1, p.1.2.1, p.1.2.2) = p.1 :=
    fun p => rfl
  rw [ee, drain_append streebogStep (st.h, st.n, st.sigma) (st.buffer ++ a) b,
    List.append_assoc]

theorem streebog_foldl :
    ∀ (cs : List Bytes) (st : StreebogState), st.buffer.length < 64 →
      cs.foldl streebogUpdate st = streebogUpdate st cs.flatten
  | [], st, hs => by
      simp only [List.foldl_nil, List.flatten_nil]
      rw [streebogUpdate_eq, List.append_nil, drain_small _ _ _ hs]
  | c :: cs, st, hs => by
      simp only [List.foldl_cons, List.flatten_cons]
      rw [streebog_foldl cs (streebogUpdate st c) (streebogUpdate_buffer_lt st c),
        streebogUpdate_append]

/-- C6: for every byte string and every way of splitting it into chunks,
feeding the chunks one at a time through `update` and then calling `digest`
yields the same digest as hashing the whole string in one call — for SM3
and for Streebog at both digest sizes. -/
theorem c6_streaming_equivalence :
    (∀ cs : List Bytes,
      sm3Digest (cs.foldl sm3Update sm3Init) =
        sm3Digest (sm3Update sm3Init cs.flatten)) ∧
    (∀ cs : List Bytes,
      streebogDigest (cs.foldl streebogUpdate (streebogInit 32)) =
        streebogDigest (streebogUpdate (streebogInit 32) cs.flatten)) ∧
    (∀ cs : List Bytes,
      streebogDigest (cs.foldl streebogUpdate (streebogInit 64)) =
        streebogDigest (streebogUpdate (streebogInit 64) cs.flatten)) := by
  refine ⟨fun cs => ?_, fun cs => ?_, fun cs => ?_⟩
  · rw [sm3_foldl cs sm3Init (by simp [sm3Init])]
  · rw [streebog_foldl cs _ (by simp [streebogInit])]
  · rw [streebog_foldl cs _ (by simp [streebogInit])]

/-! ## Claim C9: the façade's EncryptedData -/

/-- C9: for every plaintext and every algorithm for which a cipher is
initialized, `EncryptionManager.encrypt` returns an `EncryptedData` whose
`iv` field is the manager's fresh 16-byte IV, whose `tag` is `None`, and
whose `algorithm` equals the algorithm the caller passed. -/
theorem c9_manager_encrypt :
    (∀ (m : ManagerState) (p iv : Bytes) (alg : EncryptionAlgorithm) (rks : List Nat),
      iv.length = 16 → (alg = .sm4Cbc ∨ alg = .sm4Gcm) → m.sm4Cipher = some rks →
      ∃ ed, managerEncrypt m p alg iv = .ok ed ∧
        ed.iv = iv ∧ ed.iv.length = 16 ∧ ed.tag = none ∧ ed.algorithm = alg) ∧
    (∀ (m : ManagerState) (p iv key : Bytes) (alg : EncryptionAlgorithm),
      iv.length = 16 → (alg = .gostKuznyechikCbc ∨ alg = .gostKuznyechikGcm) →
      key.length = 32 → m.gostCipher = some (gostKeyExpansion key) →
      ∃ ed, managerEncrypt m p alg iv = .ok ed ∧
        ed.iv = iv ∧ ed.iv.length = 16 ∧ ed.tag = none ∧ ed.algorithm = alg) := by
  constructor
  · intro m p iv alg rks hiv halg hm
    have henc : sm4EncryptCbc rks p iv =
        .ok (cbcEncrypt (sm4EncryptBlock rks) iv (toBlocks (pkcs7Pad p))).flatten := by
      unfold sm4EncryptCbc
      rw [if_neg (by omega)]
    refine ⟨{ ciphertext := (cbcEncrypt (sm4EncryptBlock rks) iv
        (toBlocks (pkcs7Pad p))).flatten, iv := iv, tag := none, algorithm := alg },
      ?_, rfl, hiv, rfl, rfl⟩
    unfold managerEncrypt
    rw [if_pos halg, hm]
    show (sm4EncryptCbc rks p iv).map _ = _
    rw [henc]
    rfl
  · intro m p iv key alg hiv halg hkey hm
    obtain ⟨hn, hlen16⟩ := gostKeyExpansion_wf key hkey
    obtain ⟨cs, hcs, _, _⟩ := gostCbcEncryptM_ok (gostKeyExpansion key) hlen16 hn
      (toBlocks (pkcs7Pad p)) iv (toBlocks_length_mem _ (pkcs7Pad_mod p)) hiv
    have henc : gostEncryptCbc (gostKeyExpansion key) p iv = .ok cs.flatten := by
      unfold gostEncryptCbc
      rw [if_neg (by omega), hcs]
      rfl
    have hne : ¬ (alg = EncryptionAlgorithm.sm4Cbc ∨ alg = EncryptionAlgorithm.sm4Gcm) := by
      rcases halg with rfl | rfl <;> simp
    refine ⟨{ ciphertext := cs.flatten, iv := iv, tag := none, algorithm := alg },
      ?_, rfl, hiv, rfl, rfl⟩
    unfold managerEncrypt
    rw [if_neg hne, if_pos halg, hm]
    show (gostEncryptCbc (gostKeyExpansion key) p iv).map _ = _
    rw [henc]
    rfl

/-- Witness for C9 at concrete manager states, algorithms, and IV. -/
theorem c9_manager_encrypt_witness :
    (∃ ed, managerEncrypt ⟨some [], none⟩ [1, 2] .sm4Cbc (List.replicate 16 0) = .ok ed ∧
      ed.iv = List.replicate 16 0 ∧ ed.iv.length = 16 ∧ ed.tag = none ∧
      ed.algorithm = .sm4Cbc) ∧
    (∃ ed, managerEncrypt ⟨none, some (gostKeyExpansion (List.replicate 32 3))⟩ [1, 2]
        .gostKuznyechikCbc (List.replicate 16 0) = .ok ed ∧
      ed.iv = List.replicate 16 0 ∧ ed.iv.length = 16 ∧ ed.tag = none ∧
      ed.algorithm = .gostKuznyechikCbc) :=
  ⟨c9_manager_encrypt.1 ⟨some [], none⟩ [1, 2] (List.replicate 16 0) .sm4Cbc []
      (by decide) (Or.inl rfl) rfl,
   c9_manager_encrypt.2 ⟨none, some (gostKeyExpansion (List.replicate 32 3))⟩ [1, 2]
      (List.replicate 16 0) (List.replicate 32 3) .gostKuznyechikCbc
      (by decide) (Or.inl rfl) (by decide) rfl⟩

end EncSpec

